import Mathlib

/-!
# Verification of `bs::Bitstream` (Source/Foundation/bsfUtility/Utility/BsBitstream.h)

A shallow embedding of the `Bitstream` class: a bit-granular stream over a
byte buffer (`QuantType = uint8_t`, so one storage quantum is 8 bits).  The
buffer is a `List Nat` of byte values; machine-integer truncation is written
out explicitly (`% 256` for `uint8_t` stores, `% 2^32` for `uint32_t`
arithmetic).  Operations that can hit a C `assert` are modelled in `Option`:
`none` means the assertion trapped.

The C++ `while` loops of `writeBits`/`readBits` decrease `count` by
`min 8 count` each iteration, so they run at most `count` iterations; the
Lean loops carry an explicit iteration bound (`fuel`), initialised to
`count`, purely to make the recursion structural.  The `count = 0` guard
inside the loop body makes the result independent of any surplus fuel.
-/

namespace bs

/-- 2^32, the modulus of `uint32_t` arithmetic. -/
def UINT32_MOD : Nat := 4294967296

/-- Reinterpret a `uint32_t` bit pattern as the `int32_t` with the same bits
(the C cast `(int32_t)x` for values already reduced mod 2^32). -/
def toInt32 (n : Nat) : Int :=
  let m := n % UINT32_MOD
  if m < 2147483648 then (m : Int) else (m : Int) - (UINT32_MOD : Int)

/-- The C cast `(uint32_t)v` of a signed value: reduce mod 2^32. -/
def toUInt32 (v : Int) : Nat := (v % (UINT32_MOD : Int)).toNat

/-- `uint32_t` subtraction `a - b` (wraps modulo 2^32). -/
def usub32 (a b : Nat) : Nat := (a % UINT32_MOD + (UINT32_MOD - b % UINT32_MOD)) % UINT32_MOD

/-- Modelled from the spec: `Math::clamp` (BsMath.h is not under src/).  The
spec says the cursor is "clamped to `[0, capacity]`" on every skip/seek. -/
def Math.clamp (val lo hi : Int) : Int := max lo (min val hi)

/-- Modelled from the spec: `Math::divideAndRoundUp` (BsMath.h is not under
src/).  The spec says capacities are "rounded up to a whole number of
storage quanta", i.e. ceiling division. -/
def Math.divideAndRoundUp (n d : Nat) : Nat := (n + d - 1) / d

/-- Modelled from the spec: `Bitwise::bitsLog2` (BsBitwise.h is not under
src/).  It returns the base-2 logarithm of a power-of-two bit width; the
header's own `LOG2` helper (BsBitstream.h lines 138-148) uses the same
table idiom for byte sizes.  Only the value at 8 (= `BITS_PER_QUANT`) is
ever used, and `bitsLog2 8 = 3`. -/
def Bitwise.bitsLog2 (v : Nat) : Nat :=
  match v with
  | 8 => 3
  | 16 => 4
  | 32 => 5
  | 64 => 6
  | _ => 0

/-- `sizeof(QuantType)` with `QuantType = uint8_t`. -/
def BYTES_PER_QUANT : Nat := 1

/-- `BYTES_PER_QUANT * 8`. -/
def BITS_PER_QUANT : Nat := BYTES_PER_QUANT * 8

/-- `Bitwise::bitsLog2(BITS_PER_QUANT)`. -/
def BITS_PER_QUANT_LOG2 : Nat := Bitwise.bitsLog2 BITS_PER_QUANT

/-- The state of a `bs::Bitstream`: buffer bytes, capacity in bits, logical
length in bits, ownership flag and cursor (all `uint32_t` in C). -/
structure Bitstream where
  mData : List Nat
  mMaxBits : Nat
  mNumBits : Nat
  mOwnsMemory : Bool
  mCursor : Nat

/-- The default constructor `Bitstream()`. -/
def Bitstream.empty : Bitstream :=
  { mData := [], mMaxBits := 0, mNumBits := 0, mOwnsMemory := true, mCursor := 0 }

/-- The external-storage constructor `Bitstream(QuantType* data, uint32_t count)`. -/
def Bitstream.external (data : List Nat) (count : Nat) : Bitstream :=
  { mData := data, mMaxBits := count, mNumBits := count, mOwnsMemory := false, mCursor := 0 }

/-- `Bitstream::realloc`.  Fresh allocation (`bs_allocN`) is modelled as
zero-initialised bytes; `memcpy` of the previously valid bytes is the
`take`/pad below; `assert(numBits > mMaxBits)` failing is `none`. -/
def Bitstream.realloc (s : Bitstream) (numBits0 : Nat) : Option Bitstream :=
  let numBits := Math.divideAndRoundUp numBits0 BITS_PER_QUANT * BITS_PER_QUANT
  if numBits ≠ s.mMaxBits then
    if numBits > s.mMaxBits then
      let numQuants := Math.divideAndRoundUp numBits BITS_PER_QUANT
      let buffer :=
        if s.mData ≠ [] then
          let numBytes := Math.divideAndRoundUp s.mMaxBits BITS_PER_QUANT * BYTES_PER_QUANT
          s.mData.take numBytes ++ List.replicate (numQuants - numBytes) 0
        else
          List.replicate numQuants 0
      some { s with mData := buffer, mMaxBits := numBits }
    else
      none
  else
    some s

/-- `Bitstream::reallocIfNeeded`.  For externally owned memory the C code
hits `assert(false)`: modelled as `none`. -/
def Bitstream.reallocIfNeeded (s : Bitstream) (numBits : Nat) : Option Bitstream :=
  if numBits > s.mMaxBits then
    if s.mOwnsMemory then
      s.realloc (numBits + 4 * BITS_PER_QUANT + numBits / 2)
    else
      none
  else
    some s

/-- The constructor `Bitstream(uint32_t capacity)` (calls `realloc(capacity * 8)`;
the inner assert can never fire starting from the default state). -/
def Bitstream.withCapacity (capacity : Nat) : Option Bitstream :=
  Bitstream.empty.realloc (capacity * 8)

/-- `memcpy` of `n` quanta from `src` (starting at `srcOff`) into `dst`
(starting at `dstOff`). -/
def memcpyQuants (dst src : List Nat) (dstOff srcOff n : Nat) : List Nat :=
  match n with
  | 0 => dst
  | Nat.succ m => memcpyQuants (dst.set dstOff (src.getD srcOff 0)) src (dstOff + 1) (srcOff + 1) m

/-- The `while (count > 0)` loop of `Bitstream::writeBits`.  One iteration
consumes one source quant, merges it into `buf[destQuant]` (and spills into
`buf[destQuant + 1]` when `count > writtenBits`), then decreases `count` by
`min BITS_PER_QUANT count`.  `destMask` is the local computed in
`writeBits` before the loop: `(1 << BITS_PER_QUANT) - 1`; `~destMask` is
its `uint32_t` complement.  Stores into the `uint8_t` buffer truncate
(`% 256`). -/
def writeBitsLoop (fuel : Nat) (src buf : List Nat) (destQuant destBitsMod count : Nat) :
    List Nat :=
  match fuel with
  | 0 => buf
  | Nat.succ n =>
    if count = 0 then buf
    else
      let quant := src.headD 0
      let destMask := (1 <<< BITS_PER_QUANT) - 1
      let buf := buf.set destQuant
        (((quant <<< destBitsMod) ||| (buf.getD destQuant 0 &&& destMask)) % 256)
      let writtenBits := BITS_PER_QUANT - destBitsMod
      let buf :=
        if count > writtenBits then
          buf.set (destQuant + 1)
            (((quant >>> writtenBits) |||
              (buf.getD (destQuant + 1) 0 &&& ((UINT32_MOD - 1) ^^^ destMask))) % 256)
        else buf
      writeBitsLoop n src.tail buf (destQuant + 1) destBitsMod (count - min BITS_PER_QUANT count)

/-- `Bitstream::writeBits(const QuantType* data, uint32_t count)`.  `none`
models the `assert(false)` trap in `reallocIfNeeded` for an externally
owned buffer that would have to grow. -/
def Bitstream.writeBits (s : Bitstream) (data : List Nat) (count : Nat) : Option Bitstream :=
  if count = 0 then some s
  else
    let newCursor := s.mCursor + count
    (s.reallocIfNeeded newCursor).map fun s1 =>
      let destBitsMod := s1.mCursor &&& (BITS_PER_QUANT - 1)
      let destQuant := s1.mCursor >>> BITS_PER_QUANT_LOG2
      -- If destination is aligned, memcpy everything except the last quant
      -- (unless it is also aligned); `numQuants = 0` encodes the untaken
      -- branch (memcpy of 0 quanta, pointer/count adjustments by 0)
      let numQuants := if destBitsMod = 0 then count >>> BITS_PER_QUANT_LOG2 else 0
      let buf := memcpyQuants s1.mData data destQuant 0 numQuants
      let data2 := data.drop numQuants
      let count2 := count - numQuants * BITS_PER_QUANT
      let destQuant2 := destQuant + numQuants
      -- Write remaining bits (or all bits if destination wasn't aligned)
      let buf2 := writeBitsLoop count2 data2 buf destQuant2 destBitsMod count2
      { s1 with mData := buf2, mCursor := newCursor, mNumBits := max s1.mNumBits newCursor }

/-- The `while (count > 0)` loop of `Bitstream::readBits`.  One iteration
reconstructs one destination quant from `buf[srcQuant]` (and, when
`count > readBits`, from `buf[srcQuant + 1]`), stores it at `dest[destIdx]`,
then decreases `count` by `min BITS_PER_QUANT count`.  `quant |= ...` on a
`uint8_t` truncates (`% 256`). -/
def readBitsLoop (fuel : Nat) (buf dest : List Nat) (srcQuant srcBitsMod destIdx count : Nat) :
    List Nat :=
  match fuel with
  | 0 => dest
  | Nat.succ n =>
    if count = 0 then dest
    else
      let q := buf.getD srcQuant 0 >>> srcBitsMod
      let rbits := BITS_PER_QUANT - srcBitsMod
      let q := if count > rbits then (q ||| (buf.getD (srcQuant + 1) 0 <<< rbits)) % 256 else q
      readBitsLoop n buf (dest.set destIdx q) (srcQuant + 1) srcBitsMod (destIdx + 1)
        (count - min BITS_PER_QUANT count)

/-- `Bitstream::readBits(QuantType* data, uint32_t count)`.  Returns the
updated destination buffer together with the stream; `none` models the
`assert((mCursor + count) <= mNumBits)` trap. -/
def Bitstream.readBits (s : Bitstream) (dest : List Nat) (count : Nat) :
    Option (List Nat × Bitstream) :=
  if count = 0 then some (dest, s)
  else if s.mCursor + count ≤ s.mNumBits then
    let newCursor := s.mCursor + count
    let srcBitsMod := s.mCursor &&& (BITS_PER_QUANT - 1)
    let srcQuant := s.mCursor >>> BITS_PER_QUANT_LOG2
    -- If source is aligned, memcpy everything except the last quant
    -- (unless it is also aligned); `numQuants = 0` encodes the untaken
    -- branch (memcpy of 0 quanta, pointer/count adjustments by 0)
    let numQuants := if srcBitsMod = 0 then count >>> BITS_PER_QUANT_LOG2 else 0
    let dest2 := memcpyQuants dest s.mData 0 srcQuant numQuants
    let srcQuant2 := srcQuant + numQuants
    let count2 := count - numQuants * BITS_PER_QUANT
    -- Read remaining bits (or all bits if source wasn't aligned)
    let dest3 := readBitsLoop count2 s.mData dest2 srcQuant2 srcBitsMod numQuants count2
    some (dest3, { s with mCursor := newCursor })
  else
    none

/-- The single-bit overload `Bitstream::write(const bool& value)`. -/
def Bitstream.write (s : Bitstream) (value : Bool) : Option Bitstream :=
  (s.reallocIfNeeded (s.mCursor + 1)).map fun s1 =>
    let destBitsMod := s1.mCursor &&& (BITS_PER_QUANT - 1)
    let destQuant := s1.mCursor >>> BITS_PER_QUANT_LOG2
    let b := s1.mData.getD destQuant 0
    let b :=
      if value then (b ||| (1 <<< destBitsMod)) % 256
      else (b &&& ((UINT32_MOD - 1) ^^^ (1 <<< destBitsMod))) % 256
    { s1 with
      mData := s1.mData.set destQuant b
      mCursor := s1.mCursor + 1
      mNumBits := max s1.mNumBits (s1.mCursor + 1) }

/-- The single-bit overload `Bitstream::read(bool& value)`; `none` models
the `assert((mCursor + 1) <= mNumBits)` trap. -/
def Bitstream.read (s : Bitstream) : Option (Bool × Bitstream) :=
  if s.mCursor + 1 ≤ s.mNumBits then
    let srcBitsMod := s.mCursor &&& (BITS_PER_QUANT - 1)
    let srcQuant := s.mCursor >>> BITS_PER_QUANT_LOG2
    some (((s.mData.getD srcQuant 0 >>> srcBitsMod) &&& 1) ≠ 0,
      { s with mCursor := s.mCursor + 1 })
  else
    none

/-- The typed `Bitstream::write(const T&)`: reinterprets the value as
`sizeof(value)` bytes and calls `writeBits(..., sizeof(value) * 8)`. -/
def Bitstream.writeT (s : Bitstream) (valueBytes : List Nat) : Option Bitstream :=
  s.writeBits valueBytes (valueBytes.length * 8)

/-- The typed `Bitstream::read(T&)`: calls `readBits(..., sizeof(value) * 8)`. -/
def Bitstream.readT (s : Bitstream) (valueBytes : List Nat) : Option (List Nat × Bitstream) :=
  s.readBits valueBytes (valueBytes.length * 8)

/-- `Bitstream::skip(int32_t count)`:
`mCursor = (uint32_t)Math::clamp((int32_t)mCursor + count, 0, (int32_t)mMaxBits)`. -/
def Bitstream.skip (s : Bitstream) (count : Int) : Bitstream :=
  { s with mCursor := toUInt32 (Math.clamp (toInt32 s.mCursor + count) 0 (toInt32 s.mMaxBits)) }

/-- `Bitstream::seek(uint32_t pos)`: `mCursor = std::min(pos, mMaxBits)`. -/
def Bitstream.seek (s : Bitstream) (pos : Nat) : Bitstream :=
  { s with mCursor := min pos s.mMaxBits }

/-- `Bitstream::align(uint32_t count)`:
`skip(bits - (((mCursor - 1) & (bits - 1)) + 1))` with all the inner
arithmetic in `uint32_t` (`mCursor - 1` wraps at cursor 0) and the final
amount converted to `int32_t` for `skip`. -/
def Bitstream.align (s : Bitstream) (count : Nat) : Bitstream :=
  if count = 0 then s
  else
    let bits := count * 8 % UINT32_MOD
    let amount := usub32 bits (((usub32 s.mCursor 1 &&& usub32 bits 1) + 1) % UINT32_MOD)
    s.skip (toInt32 amount)

/-- `Bitstream::tell()`. -/
def Bitstream.tell (s : Bitstream) : Nat := s.mCursor

/-- `Bitstream::eof()`. -/
def Bitstream.eof (s : Bitstream) : Bool := s.mNumBits ≤ s.mCursor

/-- `Bitstream::size()`. -/
def Bitstream.size (s : Bitstream) : Nat := s.mNumBits

/-- `Bitstream::capacity()`. -/
def Bitstream.capacity (s : Bitstream) : Nat := s.mMaxBits

/-- Observer: bit `i` of a byte buffer, LSB-first within each byte — the
addressing scheme the stream's cursor uses (bit `p` lives in quantum
`p / 8` at offset `p % 8`, exactly as in `readBits`/`read(bool&)`). -/
def getBit (buf : List Nat) (i : Nat) : Bool := (buf.getD (i / 8) 0).testBit (i % 8)

/-- The two state invariants named by the spec's data model:
`lengthBits ≤ capacityBits` and `cursorBits ≤ capacityBits`. -/
def Inv (s : Bitstream) : Prop := s.mNumBits ≤ s.mMaxBits ∧ s.mCursor ≤ s.mMaxBits

/-- Buffer well-formedness: a self-owned buffer has exactly
`ceil(capacityBits / 8)` quanta (what `realloc` always establishes), the
capacity is addressable inside the buffer, and every quantum is a byte
value. -/
def WB (s : Bitstream) : Prop :=
  (s.mOwnsMemory = true → s.mData.length = Math.divideAndRoundUp s.mMaxBits BITS_PER_QUANT) ∧
  s.mMaxBits ≤ 8 * s.mData.length ∧
  (∀ b ∈ s.mData, b < 256)

/-- One public mutating operation of the stream, relating the state before
to the state after (`some` results only, i.e. runs whose asserts hold). -/
inductive Step : Bitstream → Bitstream → Prop where
  | writeBits (s s2 : Bitstream) (data : List Nat) (count : Nat) :
      s.writeBits data count = some s2 → Step s s2
  | readBits (s s2 : Bitstream) (dest dest2 : List Nat) (count : Nat) :
      s.readBits dest count = some (dest2, s2) → Step s s2
  | writeBool (s s2 : Bitstream) (value : Bool) :
      s.write value = some s2 → Step s s2
  | readBool (s s2 : Bitstream) (value : Bool) :
      s.read = some (value, s2) → Step s s2
  | writeTyped (s s2 : Bitstream) (valueBytes : List Nat) :
      s.writeT valueBytes = some s2 → Step s s2
  | readTyped (s s2 : Bitstream) (valueBytes dest2 : List Nat) :
      s.readT valueBytes = some (dest2, s2) → Step s s2
  | skip (s : Bitstream) (count : Int) : Step s (s.skip count)
  | seek (s : Bitstream) (pos : Nat) : Step s (s.seek pos)
  | align (s : Bitstream) (count : Nat) : Step s (s.align count)

/-! ## Small arithmetic and list helpers -/

theorem toInt32_small (n : Nat) (h : n < 2147483648) : toInt32 n = n := by
  unfold toInt32 UINT32_MOD
  rw [Nat.mod_eq_of_lt (by omega)]
  simp [h]

theorem toUInt32_small (v : Int) (h0 : 0 ≤ v) (h1 : v < 4294967296) : toUInt32 v = v.toNat := by
  unfold toUInt32 UINT32_MOD
  rw [Int.emod_eq_of_lt h0 (by exact_mod_cast h1)]

theorem getD_set_ne (l : List Nat) (i j v : Nat) (h : i ≠ j) :
    (l.set i v).getD j 0 = l.getD j 0 := by
  simp [List.getD, List.getElem?_set_ne h]

theorem getD_set_self (l : List Nat) (i v : Nat) (h : i < l.length) :
    (l.set i v).getD i 0 = v := by
  simp [List.getD, List.getElem?_set_self, h]

theorem skip_cursor_le (s : Bitstream) (delta : Int) : (s.skip delta).mCursor ≤ s.mMaxBits := by
  show toUInt32 (Math.clamp (toInt32 s.mCursor + delta) 0 (toInt32 s.mMaxBits)) ≤ s.mMaxBits
  have hm : s.mMaxBits % 4294967296 ≤ s.mMaxBits := Nat.mod_le _ _
  have hm2 : s.mMaxBits % 4294967296 < 4294967296 := Nat.mod_lt _ (by omega)
  simp only [toUInt32, Math.clamp, toInt32, UINT32_MOD, max_def, min_def]
  split_ifs <;> omega

theorem skip_cursor_spec (s : Bitstream) (delta : Int)
    (hc : s.mCursor < 2147483648) (hm : s.mMaxBits < 2147483648) :
    ((s.skip delta).mCursor : Int) = Math.clamp ((s.mCursor : Int) + delta) 0 (s.mMaxBits : Int) := by
  show (toUInt32 (Math.clamp (toInt32 s.mCursor + delta) 0 (toInt32 s.mMaxBits)) : Int) = _
  rw [toInt32_small _ hc, toInt32_small _ hm]
  have h0 : 0 ≤ Math.clamp ((s.mCursor : Int) + delta) 0 (s.mMaxBits : Int) :=
    le_max_left 0 _
  have h1 : Math.clamp ((s.mCursor : Int) + delta) 0 (s.mMaxBits : Int) < 4294967296 := by
    unfold Math.clamp
    omega
  rw [toUInt32_small _ h0 h1, Int.toNat_of_nonneg h0]

theorem skip_fields (s : Bitstream) (delta : Int) :
    (s.skip delta).mMaxBits = s.mMaxBits ∧ (s.skip delta).mNumBits = s.mNumBits ∧
    (s.skip delta).mData = s.mData ∧ (s.skip delta).mOwnsMemory = s.mOwnsMemory :=
  ⟨rfl, rfl, rfl, rfl⟩

theorem getD_eq (l : List Nat) (j : Nat) : l.getD j 0 = (l[j]?).getD 0 :=
  List.getD_eq_getElem?_getD l j 0

theorem getD_replicate_zero (k j : Nat) : (List.replicate k (0 : Nat)).getD j 0 = 0 := by
  rw [getD_eq, List.getElem?_replicate]
  split_ifs <;> rfl

theorem getD_append_pad (l : List Nat) (k j : Nat) :
    (l ++ List.replicate k (0 : Nat)).getD j 0 = l.getD j 0 := by
  rw [getD_eq, getD_eq]
  by_cases hj : j < l.length
  · rw [List.getElem?_append_left hj]
  · rw [List.getElem?_append_right (not_lt.mp hj), List.getElem?_eq_none (not_lt.mp hj),
      List.getElem?_replicate]
    split_ifs <;> rfl

theorem getD_take_pad (l : List Nat) (nb k j : Nat) (hj : j < nb) :
    (l.take nb ++ List.replicate k (0 : Nat)).getD j 0 = l.getD j 0 := by
  rw [getD_eq, getD_eq]
  by_cases hjl : j < l.length
  · have ht : j < (l.take nb).length := by
      simp only [List.length_take]
      omega
    rw [List.getElem?_append_left ht, List.getElem?_take, if_pos hj]
  · have hlen : (l.take nb).length ≤ j := by
      simp only [List.length_take]
      omega
    rw [List.getElem?_append_right hlen, List.getElem?_eq_none (not_lt.mp hjl),
      List.getElem?_replicate]
    split_ifs <;> rfl

theorem roundUp8_ge (m : Nat) : m ≤ Math.divideAndRoundUp m BITS_PER_QUANT * BITS_PER_QUANT := by
  simp only [Math.divideAndRoundUp, BITS_PER_QUANT, BYTES_PER_QUANT]
  omega

/-- Master case split for a successful `realloc`: either the rounded size
already equals the capacity (state unchanged) or the buffer grew to the
rounded size with the valid prefix copied and zero padding. -/
theorem realloc_cases (s : Bitstream) (m : Nat) (s2 : Bitstream)
    (h : s.realloc m = some s2) :
    (Math.divideAndRoundUp m BITS_PER_QUANT * BITS_PER_QUANT = s.mMaxBits ∧ s2 = s) ∨
    (s.mMaxBits < Math.divideAndRoundUp m BITS_PER_QUANT * BITS_PER_QUANT ∧
      s2.mMaxBits = Math.divideAndRoundUp m BITS_PER_QUANT * BITS_PER_QUANT ∧
      s2.mCursor = s.mCursor ∧ s2.mNumBits = s.mNumBits ∧ s2.mOwnsMemory = s.mOwnsMemory ∧
      ((s.mData = [] ∧
          s2.mData =
            List.replicate
              (Math.divideAndRoundUp (Math.divideAndRoundUp m BITS_PER_QUANT * BITS_PER_QUANT)
                BITS_PER_QUANT) 0) ∨
        s2.mData =
          s.mData.take (Math.divideAndRoundUp s.mMaxBits BITS_PER_QUANT * BYTES_PER_QUANT) ++
            List.replicate
              (Math.divideAndRoundUp (Math.divideAndRoundUp m BITS_PER_QUANT * BITS_PER_QUANT)
                  BITS_PER_QUANT -
                Math.divideAndRoundUp s.mMaxBits BITS_PER_QUANT * BYTES_PER_QUANT) 0)) := by
  by_cases hr : Math.divideAndRoundUp m BITS_PER_QUANT * BITS_PER_QUANT = s.mMaxBits
  · have heval : s.realloc m = some s := by
      simp only [Bitstream.realloc]
      rw [if_neg (not_ne_iff.mpr hr)]
    rw [heval, Option.some.injEq] at h
    exact Or.inl ⟨hr, h.symm⟩
  · by_cases hgt : Math.divideAndRoundUp m BITS_PER_QUANT * BITS_PER_QUANT > s.mMaxBits
    · by_cases hd : s.mData = []
      · have heval : s.realloc m = some
            { s with
              mData :=
                List.replicate
                  (Math.divideAndRoundUp (Math.divideAndRoundUp m BITS_PER_QUANT * BITS_PER_QUANT)
                    BITS_PER_QUANT) 0
              mMaxBits := Math.divideAndRoundUp m BITS_PER_QUANT * BITS_PER_QUANT } := by
          simp only [Bitstream.realloc]
          rw [if_pos hr, if_pos hgt, if_neg (not_ne_iff.mpr hd)]
        rw [heval, Option.some.injEq] at h
        subst h
        exact Or.inr ⟨hgt, rfl, rfl, rfl, rfl, Or.inl ⟨hd, rfl⟩⟩
      · have heval : s.realloc m = some
            { s with
              mData :=
                s.mData.take (Math.divideAndRoundUp s.mMaxBits BITS_PER_QUANT * BYTES_PER_QUANT) ++
                  List.replicate
                    (Math.divideAndRoundUp
                        (Math.divideAndRoundUp m BITS_PER_QUANT * BITS_PER_QUANT) BITS_PER_QUANT -
                      Math.divideAndRoundUp s.mMaxBits BITS_PER_QUANT * BYTES_PER_QUANT) 0
              mMaxBits := Math.divideAndRoundUp m BITS_PER_QUANT * BITS_PER_QUANT } := by
          simp only [Bitstream.realloc]
          rw [if_pos hr, if_pos hgt, if_pos hd]
        rw [heval, Option.some.injEq] at h
        subst h
        exact Or.inr ⟨hgt, rfl, rfl, rfl, rfl, Or.inr rfl⟩
    · have heval : s.realloc m = none := by
        simp only [Bitstream.realloc]
        rw [if_pos hr, if_neg hgt]
      rw [heval] at h
      exact absurd h (by simp)

/-- Field-level consequences of a successful `realloc`. -/
theorem realloc_some_fields (s : Bitstream) (m : Nat) (s2 : Bitstream)
    (h : s.realloc m = some s2) :
    s.mMaxBits ≤ s2.mMaxBits ∧
    Math.divideAndRoundUp m BITS_PER_QUANT * BITS_PER_QUANT ≤ s2.mMaxBits ∧
    (s.mMaxBits < Math.divideAndRoundUp m BITS_PER_QUANT * BITS_PER_QUANT →
      s2.mMaxBits = Math.divideAndRoundUp m BITS_PER_QUANT * BITS_PER_QUANT) ∧
    s2.mCursor = s.mCursor ∧ s2.mNumBits = s.mNumBits ∧ s2.mOwnsMemory = s.mOwnsMemory := by
  rcases realloc_cases s m s2 h with ⟨heq, rfl⟩ | ⟨hlt, hmax, hcur, hnum, hown, _⟩
  · exact ⟨le_refl _, by omega, by omega, rfl, rfl, rfl⟩
  · exact ⟨by omega, by omega, fun _ => hmax, hcur, hnum, hown⟩

/-- A successful `realloc` preserves every byte of the previously valid
prefix (`ceil(oldCapacityBits / quantumBits)` bytes). -/
theorem realloc_getD_prefix (s : Bitstream) (m : Nat) (s2 : Bitstream)
    (h : s.realloc m = some s2) :
    ∀ j, j < Math.divideAndRoundUp s.mMaxBits BITS_PER_QUANT →
      s2.mData.getD j 0 = s.mData.getD j 0 := by
  intro j hj
  rcases realloc_cases s m s2 h with ⟨heq, rfl⟩ | ⟨hlt, hmax, hcur, hnum, hown, hbuf⟩
  · rfl
  · rcases hbuf with ⟨hnil, hrep⟩ | htake
    · rw [hrep, hnil, getD_replicate_zero]
      rw [getD_eq]
      rfl
    · rw [htake]
      exact getD_take_pad _ _ _ _ (by simpa [BYTES_PER_QUANT] using hj)

/-- With the exact owned-buffer length, a successful `realloc` preserves
every byte (`getD` view, out-of-range reads included). -/
theorem realloc_getD_all (s : Bitstream) (m : Nat) (s2 : Bitstream)
    (h : s.realloc m = some s2)
    (hlen : s.mData.length = Math.divideAndRoundUp s.mMaxBits BITS_PER_QUANT) :
    ∀ j, s2.mData.getD j 0 = s.mData.getD j 0 := by
  intro j
  rcases realloc_cases s m s2 h with ⟨heq, rfl⟩ | ⟨hlt, hmax, hcur, hnum, hown, hbuf⟩
  · rfl
  · rcases hbuf with ⟨hnil, hrep⟩ | htake
    · rw [hrep, hnil, getD_replicate_zero]
      rw [getD_eq]
      rfl
    · rw [htake, List.take_of_length_le (by simp only [BYTES_PER_QUANT]; omega)]
      exact getD_append_pad _ _ _

/-- A successful `realloc` keeps the owned-buffer length law. -/
theorem realloc_length (s : Bitstream) (m : Nat) (s2 : Bitstream)
    (h : s.realloc m = some s2)
    (hlen : s.mData.length = Math.divideAndRoundUp s.mMaxBits BITS_PER_QUANT) :
    s2.mData.length = Math.divideAndRoundUp s2.mMaxBits BITS_PER_QUANT := by
  rcases realloc_cases s m s2 h with ⟨heq, rfl⟩ | ⟨hlt, hmax, hcur, hnum, hown, hbuf⟩
  · exact hlen
  · rw [hmax]
    rcases hbuf with ⟨hnil, hrep⟩ | htake
    · rw [hrep, List.length_replicate]
    · rw [htake]
      simp only [List.length_append, List.length_take, List.length_replicate]
      simp only [Math.divideAndRoundUp, BITS_PER_QUANT, BYTES_PER_QUANT] at *
      omega

/-- A successful `realloc` keeps all quanta byte-valued. -/
theorem realloc_bytes (s : Bitstream) (m : Nat) (s2 : Bitstream)
    (h : s.realloc m = some s2) (hb : ∀ b ∈ s.mData, b < 256) :
    ∀ b ∈ s2.mData, b < 256 := by
  rcases realloc_cases s m s2 h with ⟨heq, rfl⟩ | ⟨hlt, hmax, hcur, hnum, hown, hbuf⟩
  · exact hb
  · rcases hbuf with ⟨hnil, hrep⟩ | htake
    · intro b hbm
      rw [hrep] at hbm
      rw [List.eq_of_mem_replicate hbm]
      omega
    · intro b hbm
      rw [htake] at hbm
      rcases List.mem_append.mp hbm with hm | hm
      · exact hb b (List.mem_of_mem_take hm)
      · rw [List.eq_of_mem_replicate hm]
        omega

/-- Master case split for a successful `reallocIfNeeded`: either the
request fits (state unchanged) or the stream is self-owned and grew via
`realloc`. -/
theorem reallocIfNeeded_cases (s : Bitstream) (n : Nat) (s2 : Bitstream)
    (h : s.reallocIfNeeded n = some s2) :
    (n ≤ s.mMaxBits ∧ s2 = s) ∨
    (s.mMaxBits < n ∧ s.mOwnsMemory = true ∧
      s.realloc (n + 4 * BITS_PER_QUANT + n / 2) = some s2) := by
  by_cases hgt : n > s.mMaxBits
  · by_cases hown : s.mOwnsMemory
    · have heval : s.reallocIfNeeded n = s.realloc (n + 4 * BITS_PER_QUANT + n / 2) := by
        simp only [Bitstream.reallocIfNeeded]
        rw [if_pos hgt, if_pos hown]
      rw [heval] at h
      exact Or.inr ⟨hgt, hown, h⟩
    · have heval : s.reallocIfNeeded n = none := by
        simp only [Bitstream.reallocIfNeeded]
        rw [if_pos hgt, if_neg hown]
      rw [heval] at h
      exact absurd h (by simp)
  · have heval : s.reallocIfNeeded n = some s := by
      simp only [Bitstream.reallocIfNeeded]
      rw [if_neg hgt]
    rw [heval, Option.some.injEq] at h
    exact Or.inl ⟨by omega, h.symm⟩

/-- Field-level description of a successful `reallocIfNeeded`. -/
theorem reallocIfNeeded_some_fields (s : Bitstream) (n : Nat) (s2 : Bitstream)
    (h : s.reallocIfNeeded n = some s2) :
    n ≤ s2.mMaxBits ∧ s.mMaxBits ≤ s2.mMaxBits ∧ s2.mCursor = s.mCursor ∧
    s2.mNumBits = s.mNumBits ∧ s2.mOwnsMemory = s.mOwnsMemory := by
  rcases reallocIfNeeded_cases s n s2 h with ⟨hle, rfl⟩ | ⟨hlt, hown, hre⟩
  · exact ⟨hle, le_refl _, rfl, rfl, rfl⟩
  · obtain ⟨ha, hb, _, hcur, hnum, hown2⟩ := realloc_some_fields _ _ _ hre
    have hge := roundUp8_ge (n + 4 * BITS_PER_QUANT + n / 2)
    exact ⟨by omega, ha, hcur, hnum, hown2⟩

/-- `reallocIfNeeded` on an externally owned stream either fits (state
unchanged) or traps. -/
theorem reallocIfNeeded_external (s : Bitstream) (n : Nat) (s2 : Bitstream)
    (hown : s.mOwnsMemory = false) (h : s.reallocIfNeeded n = some s2) :
    s2 = s ∧ n ≤ s.mMaxBits := by
  rcases reallocIfNeeded_cases s n s2 h with ⟨hle, rfl⟩ | ⟨hlt, hown2, hre⟩
  · exact ⟨rfl, hle⟩
  · rw [hown] at hown2
    exact absurd hown2 (by simp)

/-- `reallocIfNeeded` preserves every byte of the buffer in the `getD`
view, given the owned-length law. -/
theorem reallocIfNeeded_getD_all (s : Bitstream) (n : Nat) (s2 : Bitstream)
    (h : s.reallocIfNeeded n = some s2)
    (hlen : s.mOwnsMemory = true →
      s.mData.length = Math.divideAndRoundUp s.mMaxBits BITS_PER_QUANT) :
    ∀ j, s2.mData.getD j 0 = s.mData.getD j 0 := by
  rcases reallocIfNeeded_cases s n s2 h with ⟨hle, rfl⟩ | ⟨hlt, hown, hre⟩
  · intro j
    rfl
  · exact realloc_getD_all _ _ _ hre (hlen hown)

/-- `reallocIfNeeded` preserves buffer well-formedness. -/
theorem reallocIfNeeded_WB (s : Bitstream) (n : Nat) (s2 : Bitstream)
    (h : s.reallocIfNeeded n = some s2) (hwb : WB s) : WB s2 := by
  rcases reallocIfNeeded_cases s n s2 h with ⟨hle, rfl⟩ | ⟨hlt, hown, hre⟩
  · exact hwb
  · have hlen := realloc_length _ _ _ hre (hwb.1 hown)
    refine ⟨fun _ => hlen, ?_, realloc_bytes _ _ _ hre hwb.2.2⟩
    rw [hlen]
    simp only [Math.divideAndRoundUp, BITS_PER_QUANT, BYTES_PER_QUANT]
    omega

theorem length_memcpyQuants : ∀ (n : Nat) (dst src : List Nat) (a b : Nat),
    (memcpyQuants dst src a b n).length = dst.length := by
  intro n
  induction n with
  | zero => intro dst src a b; rfl
  | succ m ih =>
    intro dst src a b
    simp only [memcpyQuants, ih, List.length_set]

theorem length_writeBitsLoop : ∀ (fuel : Nat) (src buf : List Nat) (q mod c : Nat),
    (writeBitsLoop fuel src buf q mod c).length = buf.length := by
  intro fuel
  induction fuel with
  | zero => intro src buf q mod c; rfl
  | succ n ih =>
    intro src buf q mod c
    by_cases hc : c = 0
    · simp only [writeBitsLoop, if_pos hc]
    · simp only [writeBitsLoop, if_neg hc, ih]
      split_ifs <;> simp only [List.length_set]

theorem length_readBitsLoop : ∀ (fuel : Nat) (buf dest : List Nat) (q mod idx c : Nat),
    (readBitsLoop fuel buf dest q mod idx c).length = dest.length := by
  intro fuel
  induction fuel with
  | zero => intro buf dest q mod idx c; rfl
  | succ n ih =>
    intro buf dest q mod idx c
    by_cases hc : c = 0
    · simp only [readBitsLoop, if_pos hc]
    · simp only [readBitsLoop, if_neg hc, ih, List.length_set]

/-- Destructuring of a successful `writeBits`. -/
theorem writeBits_some (s : Bitstream) (data : List Nat) (count : Nat) (s2 : Bitstream)
    (h : s.writeBits data count = some s2) :
    (count = 0 ∧ s2 = s) ∨
    (count ≠ 0 ∧ ∃ s1, s.reallocIfNeeded (s.mCursor + count) = some s1 ∧
      s2.mCursor = s.mCursor + count ∧
      s2.mNumBits = max s1.mNumBits (s.mCursor + count) ∧
      s2.mMaxBits = s1.mMaxBits ∧ s2.mOwnsMemory = s1.mOwnsMemory ∧
      s2.mData.length = s1.mData.length) := by
  by_cases hc : count = 0
  · subst hc
    have heval : s.writeBits data 0 = some s := by
      simp [Bitstream.writeBits]
    rw [heval, Option.some.injEq] at h
    exact Or.inl ⟨rfl, h.symm⟩
  · refine Or.inr ⟨hc, ?_⟩
    simp only [Bitstream.writeBits, if_neg hc] at h
    obtain ⟨s1, h1, h2⟩ := Option.map_eq_some'.mp h
    subst h2
    refine ⟨s1, h1, rfl, rfl, rfl, rfl, ?_⟩
    show (writeBitsLoop _ _ (memcpyQuants s1.mData data _ 0 _) _ _ _).length = s1.mData.length
    rw [length_writeBitsLoop, length_memcpyQuants]

/-- Destructuring of a successful `readBits`. -/
theorem readBits_some (s : Bitstream) (dest : List Nat) (count : Nat) (dest2 : List Nat)
    (s2 : Bitstream) (h : s.readBits dest count = some (dest2, s2)) :
    (count = 0 ∧ dest2 = dest ∧ s2 = s) ∨
    (count ≠ 0 ∧ s.mCursor + count ≤ s.mNumBits ∧
      s2.mCursor = s.mCursor + count ∧ s2.mData = s.mData ∧ s2.mNumBits = s.mNumBits ∧
      s2.mMaxBits = s.mMaxBits ∧ s2.mOwnsMemory = s.mOwnsMemory ∧
      dest2.length = dest.length) := by
  by_cases hc : count = 0
  · subst hc
    have heval : s.readBits dest 0 = some (dest, s) := by
      simp [Bitstream.readBits]
    rw [heval, Option.some.injEq, Prod.mk.injEq] at h
    exact Or.inl ⟨rfl, h.1.symm, h.2.symm⟩
  · by_cases hle : s.mCursor + count ≤ s.mNumBits
    · simp only [Bitstream.readBits, if_neg hc, if_pos hle, Option.some.injEq,
        Prod.mk.injEq] at h
      obtain ⟨hd, hs⟩ := h
      subst hs
      subst hd
      refine Or.inr ⟨hc, hle, rfl, rfl, rfl, rfl, rfl, ?_⟩
      show (readBitsLoop _ s.mData (memcpyQuants dest s.mData 0 _ _) _ _ _ _).length = dest.length
      rw [length_readBitsLoop, length_memcpyQuants]
    · simp only [Bitstream.readBits, if_neg hc, if_neg hle] at h
      exact absurd h (by simp)

/-- Destructuring of a successful single-bit `write`. -/
theorem write_some (s : Bitstream) (v : Bool) (s2 : Bitstream) (h : s.write v = some s2) :
    ∃ s1, s.reallocIfNeeded (s.mCursor + 1) = some s1 ∧
      s2.mCursor = s1.mCursor + 1 ∧ s2.mNumBits = max s1.mNumBits (s1.mCursor + 1) ∧
      s2.mMaxBits = s1.mMaxBits ∧ s2.mOwnsMemory = s1.mOwnsMemory ∧
      s2.mData = s1.mData.set (s1.mCursor >>> BITS_PER_QUANT_LOG2)
        (if v then
          (s1.mData.getD (s1.mCursor >>> BITS_PER_QUANT_LOG2) 0 |||
            (1 <<< (s1.mCursor &&& (BITS_PER_QUANT - 1)))) % 256
        else
          (s1.mData.getD (s1.mCursor >>> BITS_PER_QUANT_LOG2) 0 &&&
            ((UINT32_MOD - 1) ^^^ (1 <<< (s1.mCursor &&& (BITS_PER_QUANT - 1))))) % 256) := by
  simp only [Bitstream.write] at h
  obtain ⟨s1, h1, h2⟩ := Option.map_eq_some'.mp h
  subst h2
  exact ⟨s1, h1, rfl, rfl, rfl, rfl, rfl⟩

/-- Destructuring of a successful single-bit `read`. -/
theorem read_some (s : Bitstream) (v : Bool) (s2 : Bitstream) (h : s.read = some (v, s2)) :
    s.mCursor + 1 ≤ s.mNumBits ∧ s2.mCursor = s.mCursor + 1 ∧ s2.mData = s.mData ∧
    s2.mNumBits = s.mNumBits ∧ s2.mMaxBits = s.mMaxBits ∧ s2.mOwnsMemory = s.mOwnsMemory := by
  by_cases hle : s.mCursor + 1 ≤ s.mNumBits
  · simp only [Bitstream.read, if_pos hle, Option.some.injEq, Prod.mk.injEq] at h
    obtain ⟨hv, hs⟩ := h
    subst hs
    exact ⟨hle, rfl, rfl, rfl, rfl, rfl⟩
  · simp only [Bitstream.read, if_neg hle] at h
    exact absurd h (by simp)

/-- `align` only moves the cursor. -/
theorem align_fields (s : Bitstream) (count : Nat) :
    (s.align count).mMaxBits = s.mMaxBits ∧ (s.align count).mNumBits = s.mNumBits ∧
    (s.align count).mData = s.mData ∧ (s.align count).mOwnsMemory = s.mOwnsMemory := by
  unfold Bitstream.align
  split_ifs <;> exact ⟨rfl, rfl, rfl, rfl⟩

theorem align_cursor_le (s : Bitstream) (count : Nat) (hc : s.mCursor ≤ s.mMaxBits) :
    (s.align count).mCursor ≤ s.mMaxBits := by
  unfold Bitstream.align
  split_ifs
  · exact hc
  · exact skip_cursor_le _ _

/-- One `Step` never decreases the capacity. -/
theorem step_maxBits_mono (s s2 : Bitstream) (h : Step s s2) : s.mMaxBits ≤ s2.mMaxBits := by
  cases h with
  | writeBits s2 data count h =>
    rcases writeBits_some s data count s2 h with ⟨_, rfl⟩ | ⟨_, s1, h1, _, _, hmax, _, _⟩
    · exact le_refl _
    · rw [hmax]
      exact (reallocIfNeeded_some_fields _ _ _ h1).2.1
  | readBits s2 dest dest2 count h =>
    rcases readBits_some s dest count dest2 s2 h with ⟨_, _, rfl⟩ | ⟨_, _, _, _, _, hmax, _, _⟩
    · exact le_refl _
    · rw [hmax]
  | writeBool s2 v h =>
    obtain ⟨s1, h1, _, _, hmax, _, _⟩ := write_some s v s2 h
    rw [hmax]
    exact (reallocIfNeeded_some_fields _ _ _ h1).2.1
  | readBool s2 v h =>
    rw [(read_some s v s2 h).2.2.2.2.1]
  | writeTyped s2 vb h =>
    rcases writeBits_some s vb (vb.length * 8) s2 h with ⟨_, rfl⟩ | ⟨_, s1, h1, _, _, hmax, _, _⟩
    · exact le_refl _
    · rw [hmax]
      exact (reallocIfNeeded_some_fields _ _ _ h1).2.1
  | readTyped s2 vb dest2 h =>
    rcases readBits_some s vb (vb.length * 8) dest2 s2 h with ⟨_, _, rfl⟩ |
      ⟨_, _, _, _, _, hmax, _, _⟩
    · exact le_refl _
    · rw [hmax]
  | skip count => exact le_of_eq rfl
  | seek pos => exact le_of_eq rfl
  | align count => exact le_of_eq (align_fields s count).1.symm

/-! ## Claim theorems -/

/-- **C9**: starting from a default stream, writing the 3-bit value `0b101`,
then the 5-bit value `0b11010`, seeking to 0 and reading 3 then 5 bits
returns `0b101` (the low 3 bits of the quantum `readBits` fills) and
`0b11010`; afterwards `tell()` is 8 and `size()` is 8. -/
theorem C9_concrete_scenario :
    (do
      let s1 ← Bitstream.empty.writeBits [5] 3
      let s2 ← s1.writeBits [26] 5
      let s3 := s2.seek 0
      let (d1, s4) ← s3.readBits [0] 3
      let (d2, s5) ← s4.readBits [0] 5
      pure (d1.getD 0 0 &&& 7, d2.getD 0 0 &&& 31, s5.tell, s5.size)) =
      some (5, 26, 8, 8) := by
  rfl

/-- **C1**: the write/seek/read round-trip FAILS on this code.  Writing the
16-bit value `0xFFFF`, seeking to bit 1 (misalignment 1), writing the 8-bit
value `0`, seeking back and reading 8 bits returns `0b1111111` (127)
instead of the written value `0`: `writeBits` merges with
`destMask = (1 << BITS_PER_QUANT) - 1` (the full-byte mask), so it ORs the
old buffer contents into the written range instead of replacing them. -/
theorem C1_roundTrip_fails :
    (do
      let s1 ← Bitstream.empty.writeBits [255, 255] 16
      let s2 ← (s1.seek 1).writeBits [0] 8
      let (d, _) ← (s2.seek 1).readBits [0] 8
      pure (d.getD 0 0)) = some 127 ∧ (127 : Nat) ≠ 0 := by
  exact ⟨rfl, by decide⟩

/-- **C2** (counterexample): `writeBits` does NOT leave every bit outside
`[cursor, cursor + count)` unchanged.  On an external buffer `[0x00, 0xFF]`
with the cursor at bit 4, writing the 8 bits `0xFF` (range `[4, 12)`)
clears bit 12, which lies outside the written range: the spill store uses
`mData[destQuant + 1] & ~destMask` with `destMask` the full-byte mask, which
zeroes the neighbouring bits instead of preserving them. -/
theorem C2_counterexample :
    getBit (Bitstream.external [0, 255] 16).mData 12 = true ∧
    (((Bitstream.external [0, 255] 16).seek 4).writeBits [255] 8).map
        (fun s2 => getBit s2.mData 12) = some false ∧
    ¬(4 ≤ 12 ∧ 12 < 4 + 8) := by
  refine ⟨by decide, rfl, by decide⟩

/-- **C5** (counterexample): for `byteCount = 3` (not a power of two),
`align` does not move the cursor to a multiple of `byteCount * 8 = 24`.
With capacity 48 and the cursor at bit 25, the next 24-bit boundary is 48,
but the mask arithmetic `bits - (((mCursor - 1) & (bits - 1)) + 1)` yields
cursor 32, which is not a multiple of 24. -/
theorem C5_counterexample :
    (((Bitstream.external [0, 0, 0, 0, 0, 0] 48).seek 25).align 3).mCursor = 32 ∧
    ¬(32 % (3 * 8) = 0) ∧ (32 : Nat) ≠ 48 := by
  refine ⟨by decide, by decide, by decide⟩

/-- **C6**: `skip(delta)` sets the cursor to the old cursor plus `delta`
clamped to `[0, capacity]`, and `seek(pos)` sets it to `min pos capacity`;
neither touches the buffer or the capacity.  In particular
`seek(capacity + 1000)` leaves `tell() = capacity` and `skip(-1000)` from
position 5 leaves `tell() = 0`.  (The range hypotheses keep the `int32_t`
arithmetic of `skip` free of overflow.) -/
theorem C6_skip_seek_clamped :
    (∀ (s : Bitstream) (delta : Int), s.mCursor < 2147483648 → s.mMaxBits < 2147483648 →
      ((s.skip delta).mCursor : Int) = Math.clamp ((s.mCursor : Int) + delta) 0 (s.mMaxBits : Int) ∧
      (s.skip delta).mMaxBits = s.mMaxBits ∧ (s.skip delta).mData = s.mData) ∧
    (∀ (s : Bitstream) (pos : Nat),
      (s.seek pos).tell = min pos s.mMaxBits ∧
      (s.seek pos).mMaxBits = s.mMaxBits ∧ (s.seek pos).mData = s.mData) ∧
    (∀ s : Bitstream, (s.seek (s.capacity + 1000)).tell = s.capacity) ∧
    (∀ s : Bitstream, s.mMaxBits < 2147483648 → 5 ≤ s.mMaxBits →
      ((s.seek 5).skip (-1000)).tell = 0) := by
  refine ⟨fun s delta hc hm => ⟨skip_cursor_spec s delta hc hm, rfl, rfl⟩,
    fun s pos => ⟨rfl, rfl, rfl⟩, fun s => ?_, fun s hm h5 => ?_⟩
  · show min (s.mMaxBits + 1000) s.mMaxBits = s.mMaxBits
    omega
  · have hc : (s.seek 5).mCursor < 2147483648 := by
      show min 5 s.mMaxBits < 2147483648
      omega
    have hmm : (s.seek 5).mMaxBits < 2147483648 := hm
    have hspec := skip_cursor_spec (s.seek 5) (-1000) hc hmm
    have hcur : (s.seek 5).mCursor = 5 := by
      show min 5 s.mMaxBits = 5
      omega
    rw [hcur] at hspec
    show ((s.seek 5).skip (-1000)).mCursor = 0
    simp only [Math.clamp, max_def, min_def] at hspec
    split_ifs at hspec <;> omega

/-- Witness for C6 at a concrete input: the spec's own clamping test. -/
theorem C6_witness : (((Bitstream.external [0, 0] 16).seek 5).skip (-1000)).tell = 0 :=
  C6_skip_seek_clamped.2.2.2 (Bitstream.external [0, 0] 16) (by decide) (by decide)

/-- **C4**: after construction and after every operation whose stated
precondition holds (a `some` result), the state satisfies
`lengthBits ≤ capacityBits` and `cursorBits ≤ capacityBits`. -/
theorem C4_invariants :
    Inv Bitstream.empty ∧
    (∀ (c : Nat) (s : Bitstream), Bitstream.withCapacity c = some s → Inv s) ∧
    (∀ (data : List Nat) (count : Nat), Inv (Bitstream.external data count)) ∧
    (∀ s s2 : Bitstream, Inv s → Step s s2 → Inv s2) := by
  refine ⟨⟨le_refl 0, le_refl 0⟩, ?_, ?_, ?_⟩
  · intro c s h
    obtain ⟨_, _, _, hcur, hnum, _⟩ := realloc_some_fields _ _ _ h
    constructor
    · rw [hnum]
      exact Nat.zero_le _
    · rw [hcur]
      exact Nat.zero_le _
  · intro data count
    exact ⟨le_refl _, Nat.zero_le _⟩
  · intro s s2 hinv hstep
    cases hstep with
    | writeBits s2 data count h =>
      rcases writeBits_some s data count s2 h with ⟨_, rfl⟩ |
        ⟨_, s1, h1, hcur, hnum, hmax, _, _⟩
      · exact hinv
      · obtain ⟨hn, hm, _, hnum1, _⟩ := reallocIfNeeded_some_fields _ _ _ h1
        constructor
        · rw [hnum, hmax, hnum1]
          exact max_le (le_trans hinv.1 hm) hn
        · rw [hcur, hmax]
          exact hn
    | readBits s2 dest dest2 count h =>
      rcases readBits_some s dest count dest2 s2 h with ⟨_, _, rfl⟩ |
        ⟨_, hle, hcur, _, hnum, hmax, _, _⟩
      · exact hinv
      · constructor
        · rw [hnum, hmax]
          exact hinv.1
        · rw [hcur, hmax]
          exact le_trans hle hinv.1
    | writeBool s2 v h =>
      obtain ⟨s1, h1, hcur, hnum, hmax, _, _⟩ := write_some s v s2 h
      obtain ⟨hn, hm, hcur1, hnum1, _⟩ := reallocIfNeeded_some_fields _ _ _ h1
      constructor
      · rw [hnum, hmax, hnum1, hcur1]
        exact max_le (le_trans hinv.1 hm) hn
      · rw [hcur, hcur1, hmax]
        exact hn
    | readBool s2 v h =>
      obtain ⟨hle, hcur, _, hnum, hmax, _⟩ := read_some s v s2 h
      constructor
      · rw [hnum, hmax]
        exact hinv.1
      · rw [hcur, hmax]
        exact le_trans hle hinv.1
    | writeTyped s2 vb h =>
      rcases writeBits_some s vb (vb.length * 8) s2 h with ⟨_, rfl⟩ |
        ⟨_, s1, h1, hcur, hnum, hmax, _, _⟩
      · exact hinv
      · obtain ⟨hn, hm, _, hnum1, _⟩ := reallocIfNeeded_some_fields _ _ _ h1
        constructor
        · rw [hnum, hmax, hnum1]
          exact max_le (le_trans hinv.1 hm) hn
        · rw [hcur, hmax]
          exact hn
    | readTyped s2 vb dest2 h =>
      rcases readBits_some s vb (vb.length * 8) dest2 s2 h with ⟨_, _, rfl⟩ |
        ⟨_, hle, hcur, _, hnum, hmax, _, _⟩
      · exact hinv
      · constructor
        · rw [hnum, hmax]
          exact hinv.1
        · rw [hcur, hmax]
          exact le_trans hle hinv.1
    | skip count => exact ⟨hinv.1, skip_cursor_le s count⟩
    | seek pos => exact ⟨hinv.1, min_le_right pos s.mMaxBits⟩
    | align count =>
      refine ⟨?_, ?_⟩
      · rw [(align_fields s count).1, (align_fields s count).2.1]
        exact hinv.1
      · rw [(align_fields s count).1]
        exact align_cursor_le s count hinv.2

/-- Witness for C4: the invariant propagates through a concrete `seek` on a
concrete external stream. -/
theorem C4_witness : Inv ((Bitstream.external [0, 0] 16).seek 5) :=
  C4_invariants.2.2.2 (Bitstream.external [0, 0] 16) ((Bitstream.external [0, 0] 16).seek 5)
    ⟨by decide, by decide⟩ (Step.seek (Bitstream.external [0, 0] 16) 5)

/-- **C3**: when a write on a self-owned stream needs `n > capacity` bits,
the new capacity is `n + 4 quanta + n/2` rounded up to whole quanta; the
previously valid `ceil(oldCapacityBits/8)` bytes are preserved
byte-for-byte; and the capacity never decreases across any sequence of
operations. -/
theorem C3_growth :
    (∀ (s : Bitstream) (n : Nat) (s2 : Bitstream),
      s.mOwnsMemory = true → s.mMaxBits < n → s.reallocIfNeeded n = some s2 →
      s2.mMaxBits =
          Math.divideAndRoundUp (n + 4 * BITS_PER_QUANT + n / 2) BITS_PER_QUANT *
            BITS_PER_QUANT ∧
        ∀ j, j < Math.divideAndRoundUp s.mMaxBits BITS_PER_QUANT →
          s2.mData.getD j 0 = s.mData.getD j 0) ∧
    (∀ s s2 : Bitstream, Relation.ReflTransGen Step s s2 → s.mMaxBits ≤ s2.mMaxBits) := by
  constructor
  · intro s n s2 hown hlt h
    rcases reallocIfNeeded_cases s n s2 h with ⟨hle, _⟩ | ⟨_, _, hre⟩
    · omega
    · refine ⟨?_, realloc_getD_prefix _ _ _ hre⟩
      have hge := roundUp8_ge (n + 4 * BITS_PER_QUANT + n / 2)
      exact (realloc_some_fields _ _ _ hre).2.2.1 (by omega)
  · intro s s2 h
    induction h with
    | refl => exact le_refl _
    | tail h1 h2 ih => exact le_trans ih (step_maxBits_mono _ _ h2)

/-- Witness for C3 at a concrete input: growing the empty stream for a
3-bit write yields capacity `roundUp8(3 + 32 + 1) = 40`. -/
theorem C3_growth_witness :
    ({ mData := List.replicate 5 0, mMaxBits := 40, mNumBits := 0, mOwnsMemory := true,
        mCursor := 0 } : Bitstream).mMaxBits =
      Math.divideAndRoundUp (3 + 4 * BITS_PER_QUANT + 3 / 2) BITS_PER_QUANT * BITS_PER_QUANT :=
  (C3_growth.1 Bitstream.empty 3
    { mData := List.replicate 5 0, mMaxBits := 40, mNumBits := 0, mOwnsMemory := true,
      mCursor := 0 } rfl (by decide) (by rfl)).1

/-- **C8**: on an externally owned stream no operation changes the capacity
or the buffer extent, and a `writeBits` whose end would exceed the capacity
traps (returns `none`, the model of `assert(false)`) instead of silently
writing outside the given buffer. -/
theorem C8_external_fixed :
    (∀ s s2 : Bitstream, s.mOwnsMemory = false → Step s s2 →
      s2.mMaxBits = s.mMaxBits ∧ s2.mData.length = s.mData.length ∧
        s2.mOwnsMemory = false) ∧
    (∀ (s : Bitstream) (data : List Nat) (count : Nat), s.mOwnsMemory = false → count ≠ 0 →
      s.mMaxBits < s.mCursor + count → s.writeBits data count = none) := by
  constructor
  · intro s s2 hown hstep
    cases hstep with
    | writeBits s2 data count h =>
      rcases writeBits_some s data count s2 h with ⟨_, rfl⟩ |
        ⟨_, s1, h1, _, _, hmax, hown2, hlen⟩
      · exact ⟨rfl, rfl, hown⟩
      · obtain ⟨hs1, _⟩ := reallocIfNeeded_external s _ s1 hown h1
        subst hs1
        refine ⟨hmax, hlen, ?_⟩
        rw [hown2]
        exact hown
    | readBits s2 dest dest2 count h =>
      rcases readBits_some s dest count dest2 s2 h with ⟨_, _, rfl⟩ |
        ⟨_, _, _, hdata, _, hmax, hown2, _⟩
      · exact ⟨rfl, rfl, hown⟩
      · refine ⟨hmax, by rw [hdata], ?_⟩
        rw [hown2]
        exact hown
    | writeBool s2 v h =>
      obtain ⟨s1, h1, _, _, hmax, hown2, hdata⟩ := write_some s v s2 h
      obtain ⟨hs1, _⟩ := reallocIfNeeded_external s _ s1 hown h1
      subst hs1
      refine ⟨hmax, by rw [hdata, List.length_set], ?_⟩
      rw [hown2]
      exact hown
    | readBool s2 v h =>
      obtain ⟨_, _, hdata, _, hmax, hown2⟩ := read_some s v s2 h
      refine ⟨hmax, by rw [hdata], ?_⟩
      rw [hown2]
      exact hown
    | writeTyped s2 vb h =>
      rcases writeBits_some s vb (vb.length * 8) s2 h with ⟨_, rfl⟩ |
        ⟨_, s1, h1, _, _, hmax, hown2, hlen⟩
      · exact ⟨rfl, rfl, hown⟩
      · obtain ⟨hs1, _⟩ := reallocIfNeeded_external s _ s1 hown h1
        subst hs1
        refine ⟨hmax, hlen, ?_⟩
        rw [hown2]
        exact hown
    | readTyped s2 vb dest2 h =>
      rcases readBits_some s vb (vb.length * 8) dest2 s2 h with ⟨_, _, rfl⟩ |
        ⟨_, _, _, hdata, _, hmax, hown2, _⟩
      · exact ⟨rfl, rfl, hown⟩
      · refine ⟨hmax, by rw [hdata], ?_⟩
        rw [hown2]
        exact hown
    | skip count => exact ⟨rfl, rfl, hown⟩
    | seek pos => exact ⟨rfl, rfl, hown⟩
    | align count =>
      exact ⟨(align_fields s count).1, by rw [(align_fields s count).2.2.1],
        by rw [(align_fields s count).2.2.2]; exact hown⟩
  · intro s data count hown hc hlt
    simp only [Bitstream.writeBits, if_neg hc]
    have hnone : s.reallocIfNeeded (s.mCursor + count) = none := by
      simp only [Bitstream.reallocIfNeeded]
      rw [if_pos (by omega), if_neg (by rw [hown]; simp)]
    rw [hnone]
    rfl

/-- Witness for C8: the spec's own test — a 16-bit external buffer and a
17-bit write is a trapped contract violation. -/
theorem C8_witness : (Bitstream.external [0, 0] 16).writeBits [0, 0, 0] 17 = none :=
  C8_external_fixed.2 (Bitstream.external [0, 0] 16) [0, 0, 0] 17 rfl (by decide) (by decide)

/-! ## Single-bit write: byte-level bit lemmas -/

theorem testBit_set_one (b m j : Nat) (hj : j < 8) :
    ((b ||| (1 <<< m)) % 256).testBit j = if j = m then true else b.testBit j := by
  rw [show (256 : Nat) = 2 ^ 8 from rfl, Nat.testBit_mod_two_pow, Nat.testBit_lor,
    show (1 <<< m : Nat) = 2 ^ m by rw [Nat.shiftLeft_eq, one_mul], Nat.testBit_two_pow]
  by_cases hjm : j = m
  · subst hjm
    simp [hj]
  · simp [hj, hjm, show ¬(m = j) from fun hc => hjm hc.symm]

theorem testBit_clear_one (b m j : Nat) (hj : j < 8) (hm : m < 8) :
    ((b &&& ((UINT32_MOD - 1) ^^^ (1 <<< m))) % 256).testBit j =
      if j = m then false else b.testBit j := by
  rw [show (256 : Nat) = 2 ^ 8 from rfl, Nat.testBit_mod_two_pow, Nat.testBit_land,
    Nat.testBit_xor, show UINT32_MOD - 1 = 2 ^ 32 - 1 from rfl, Nat.testBit_two_pow_sub_one,
    show (1 <<< m : Nat) = 2 ^ m by rw [Nat.shiftLeft_eq, one_mul], Nat.testBit_two_pow]
  by_cases hjm : j = m
  · subst hjm
    simp [hj, show j < 32 by omega]
  · simp [hj, hjm, show ¬(m = j) from fun hc => hjm hc.symm, show j < 32 by omega]

/-- Cursor-arithmetic bridges: the C index computations in terms of `/` and `%`. -/
theorem cursor_shiftRight (c : Nat) : c >>> BITS_PER_QUANT_LOG2 = c / 8 := by
  show c >>> 3 = c / 8
  rw [Nat.shiftRight_eq_div_pow]

theorem cursor_and_mask (c : Nat) : c &&& (BITS_PER_QUANT - 1) = c % 8 := by
  show c &&& (2 ^ 3 - 1) = c % 8
  rw [Nat.and_pow_two_sub_one_eq_mod]

/-- **C7**: the single-bit boolean `write` overload sets or clears exactly
the one bit at the cursor: the bit at the cursor becomes the written value
and every other bit of the buffer keeps its previous value (so any sequence
of boolean writes at one position touches only that bit). -/
theorem C7_writeBool_isolation :
    ∀ (s : Bitstream) (v : Bool) (s2 : Bitstream), WB s → s.write v = some s2 →
      getBit s2.mData s.mCursor = v ∧
      (∀ i, i ≠ s.mCursor → getBit s2.mData i = getBit s.mData i) ∧
      s2.mCursor = s.mCursor + 1 := by
  intro s v s2 hwb h
  obtain ⟨s1, h1, hcur, hnum, hmax, hown, hdata⟩ := write_some s v s2 h
  have hall := reallocIfNeeded_getD_all s _ s1 h1 hwb.1
  have hwb1 := reallocIfNeeded_WB s _ s1 h1 hwb
  obtain ⟨hn, hm, hcur1, hnum1, hown1⟩ := reallocIfNeeded_some_fields s _ s1 h1
  rw [hcur1, cursor_shiftRight, cursor_and_mask] at hdata
  have hqlt : s.mCursor / 8 < s1.mData.length := by
    have h8 : s1.mMaxBits ≤ 8 * s1.mData.length := hwb1.2.1
    omega
  have hmod : s.mCursor % 8 < 8 := Nat.mod_lt _ (by omega)
  refine ⟨?_, ?_, by rw [hcur, hcur1]⟩
  · show (s2.mData.getD (s.mCursor / 8) 0).testBit (s.mCursor % 8) = v
    rw [hdata, getD_set_self _ _ _ hqlt]
    cases v
    · rw [if_neg (by simp)]
      rw [testBit_clear_one _ _ _ hmod hmod, if_pos rfl]
    · rw [if_pos rfl]
      rw [testBit_set_one _ _ _ hmod, if_pos rfl]
  · intro i hi
    show (s2.mData.getD (i / 8) 0).testBit (i % 8) = (s.mData.getD (i / 8) 0).testBit (i % 8)
    by_cases hq : i / 8 = s.mCursor / 8
    · have hjm : i % 8 ≠ s.mCursor % 8 := by
        intro hcontra
        exact hi (by omega)
      rw [hdata, hq, getD_set_self _ _ _ hqlt]
      have hj8 : i % 8 < 8 := Nat.mod_lt _ (by omega)
      cases v
      · rw [if_neg (by simp), testBit_clear_one _ _ _ hj8 hmod, if_neg hjm, hall (s.mCursor / 8)]
      · rw [if_pos rfl, testBit_set_one _ _ _ hj8, if_neg hjm, hall (s.mCursor / 8)]
    · rw [hdata, getD_set_ne _ _ _ _ (fun hcontra => hq hcontra.symm), hall (i / 8)]

/-- Witness for C7: writing `false` at bit 3 of an all-ones 16-bit external
buffer clears exactly that bit (the neighbour bit 2 survives). -/
theorem C7_witness :
    getBit ({ mData := [247, 255], mMaxBits := 16, mNumBits := 16, mOwnsMemory := false,
              mCursor := 4 } : Bitstream).mData 3 = false ∧
    getBit ({ mData := [247, 255], mMaxBits := 16, mNumBits := 16, mOwnsMemory := false,
              mCursor := 4 } : Bitstream).mData 2 =
      getBit ((Bitstream.external [255, 255] 16).seek 3).mData 2 := by
  have h := C7_writeBool_isolation ((Bitstream.external [255, 255] 16).seek 3) false
    { mData := [247, 255], mMaxBits := 16, mNumBits := 16, mOwnsMemory := false, mCursor := 4 }
    ⟨fun hc => Bool.noConfusion hc, by decide, by decide⟩ rfl
  exact ⟨h.1, h.2.1 2 (by decide)⟩

/-! ## Frame lemmas for `writeBits` -/

theorem BPQ_eq : BITS_PER_QUANT = 8 := rfl

theorem BPQL_eq : BITS_PER_QUANT_LOG2 = 3 := rfl

theorem getD_eq_zero_of_le (l : List Nat) (i : Nat) (h : l.length ≤ i) : l.getD i 0 = 0 := by
  rw [getD_eq, List.getElem?_eq_none h]
  rfl

theorem writeBitsLoop_zero (fuel : Nat) (src buf : List Nat) (q mod : Nat) :
    writeBitsLoop fuel src buf q mod 0 = buf := by
  cases fuel <;> simp [writeBitsLoop]

theorem memcpyQuants_zero (dst src : List Nat) (a b : Nat) : memcpyQuants dst src a b 0 = dst :=
  rfl

theorem memcpyQuants_frame : ∀ (n : Nat) (dst src : List Nat) (a b k : Nat),
    (k < a ∨ a + n ≤ k) → (memcpyQuants dst src a b n).getD k 0 = dst.getD k 0 := by
  intro n
  induction n with
  | zero => intro dst src a b k hk; rfl
  | succ m ih =>
    intro dst src a b k hk
    show (memcpyQuants (dst.set a (src.getD b 0)) src (a + 1) (b + 1) m).getD k 0 = dst.getD k 0
    rw [ih _ _ _ _ _ (by omega), getD_set_ne _ _ _ _ (by omega)]

/-- Bytes outside the quanta overlapping the written bit range
`[8q + mod, 8q + mod + count)` are untouched by the write loop. -/
theorem writeBitsLoop_frame (mod : Nat) (hmod : mod < 8) :
    ∀ (fuel : Nat) (src buf : List Nat) (q count k : Nat),
      (k < q ∨ q + Math.divideAndRoundUp (mod + count) BITS_PER_QUANT ≤ k) →
      (writeBitsLoop fuel src buf q mod count).getD k 0 = buf.getD k 0 := by
  intro fuel
  induction fuel with
  | zero => intro src buf q count k hk; rfl
  | succ n ih =>
    intro src buf q count k hk
    by_cases hc : count = 0
    · simp [writeBitsLoop, hc]
    · simp only [Math.divideAndRoundUp, BPQ_eq] at hk
      have hknq : k ≠ q := by omega
      simp only [writeBitsLoop, if_neg hc, BPQ_eq]
      by_cases hbig : 8 < count
      · have hsp : 8 - mod < count := by omega
        rw [if_pos hsp]
        have hmin : count - min 8 count = count - 8 := by omega
        rw [hmin, ih src.tail _ (q + 1) (count - 8) k
          (by simp only [Math.divideAndRoundUp, BPQ_eq]; omega)]
        rw [getD_set_ne _ _ _ _ (by omega), getD_set_ne _ _ _ _ (by omega)]
      · have hmin : count - min 8 count = 0 := by omega
        rw [hmin, writeBitsLoop_zero]
        by_cases hsp : 8 - mod < count
        · rw [if_pos hsp]
          rw [getD_set_ne _ _ _ _ (by omega), getD_set_ne _ _ _ _ (by omega)]
        · rw [if_neg hsp]
          rw [getD_set_ne _ _ _ _ (by omega)]

/-- The bits below `mod` in the first written quantum survive the write
loop (the merge ORs the shifted source, whose low `mod` bits are zero,
with the old byte). -/
theorem writeBitsLoop_firstByte (mod : Nat) (hmod : mod < 8) (fuel : Nat)
    (src buf : List Nat) (q count j : Nat) (hj : j < mod) :
    ((writeBitsLoop fuel src buf q mod count).getD q 0).testBit j =
      (buf.getD q 0).testBit j := by
  cases fuel with
  | zero => rfl
  | succ n =>
    by_cases hc : count = 0
    · simp [writeBitsLoop, hc]
    · simp only [writeBitsLoop, if_neg hc, BPQ_eq]
      have hframe := writeBitsLoop_frame mod hmod n src.tail
      have hfq : ∀ buf2 count2, (writeBitsLoop n src.tail buf2 (q + 1) mod count2).getD q 0 =
          buf2.getD q 0 := fun buf2 count2 => hframe buf2 (q + 1) count2 q (Or.inl (by omega))
      by_cases hsp : 8 - mod < count
      · rw [if_pos hsp, hfq, getD_set_ne _ _ _ _ (by omega)]
        by_cases hq : q < buf.length
        · rw [getD_set_self _ _ _ hq]
          rw [show (256 : Nat) = 2 ^ 8 from rfl, Nat.testBit_mod_two_pow, Nat.testBit_lor,
            Nat.testBit_land]
          have h1 : (src.headD 0 <<< mod).testBit j = false := by
            rw [Nat.testBit_shiftLeft]
            simp [show ¬(j ≥ mod) by omega]
          have h2 : ((1 <<< 8 : Nat) - 1).testBit j = true := by
            rw [show (1 <<< 8 : Nat) - 1 = 2 ^ 8 - 1 from rfl, Nat.testBit_two_pow_sub_one]
            simp [show j < 8 by omega]
          rw [h1, h2]
          simp [show j < 8 by omega]
        · rw [List.set_eq_of_length_le (by omega), getD_eq_zero_of_le _ _ (by omega)]
      · rw [if_neg hsp, hfq]
        by_cases hq : q < buf.length
        · rw [getD_set_self _ _ _ hq]
          rw [show (256 : Nat) = 2 ^ 8 from rfl, Nat.testBit_mod_two_pow, Nat.testBit_lor,
            Nat.testBit_land]
          have h1 : (src.headD 0 <<< mod).testBit j = false := by
            rw [Nat.testBit_shiftLeft]
            simp [show ¬(j ≥ mod) by omega]
          have h2 : ((1 <<< 8 : Nat) - 1).testBit j = true := by
            rw [show (1 <<< 8 : Nat) - 1 = 2 ^ 8 - 1 from rfl, Nat.testBit_two_pow_sub_one]
            simp [show j < 8 by omega]
          rw [h1, h2]
          simp [show j < 8 by omega]
        · rw [List.set_eq_of_length_le (by omega), getD_eq_zero_of_le _ _ (by omega)]

/-- The exact buffer produced by a successful non-trivial `writeBits`. -/
theorem writeBits_data (s : Bitstream) (data : List Nat) (count : Nat) (s2 : Bitstream)
    (hc : count ≠ 0) (h : s.writeBits data count = some s2) :
    ∃ s1, s.reallocIfNeeded (s.mCursor + count) = some s1 ∧
      s2.mData =
        writeBitsLoop
          (count -
            (if s1.mCursor &&& (BITS_PER_QUANT - 1) = 0 then count >>> BITS_PER_QUANT_LOG2
              else 0) * BITS_PER_QUANT)
          (data.drop
            (if s1.mCursor &&& (BITS_PER_QUANT - 1) = 0 then count >>> BITS_PER_QUANT_LOG2
              else 0))
          (memcpyQuants s1.mData data (s1.mCursor >>> BITS_PER_QUANT_LOG2) 0
            (if s1.mCursor &&& (BITS_PER_QUANT - 1) = 0 then count >>> BITS_PER_QUANT_LOG2
              else 0))
          (s1.mCursor >>> BITS_PER_QUANT_LOG2 +
            (if s1.mCursor &&& (BITS_PER_QUANT - 1) = 0 then count >>> BITS_PER_QUANT_LOG2
              else 0))
          (s1.mCursor &&& (BITS_PER_QUANT - 1))
          (count -
            (if s1.mCursor &&& (BITS_PER_QUANT - 1) = 0 then count >>> BITS_PER_QUANT_LOG2
              else 0) * BITS_PER_QUANT) := by
  simp only [Bitstream.writeBits, if_neg hc] at h
  obtain ⟨s1, h1, h2⟩ := Option.map_eq_some'.mp h
  subst h2
  exact ⟨s1, h1, rfl⟩

/-- **C2** (amended): `writeBits(source, count)` preserves every bit
strictly below the cursor and every bit in storage quanta entirely beyond
the quanta overlapping `[cursor, cursor + count)`; bits at positions
`≥ cursor + count` inside the overlapped quanta may be altered (ORed with
source bits, zeroed by the spill store, or overwritten). -/
theorem C2_write_frame :
    ∀ (s : Bitstream) (data : List Nat) (count : Nat) (s2 : Bitstream), WB s →
      s.writeBits data count = some s2 →
      ∀ i, (i < s.mCursor ∨
          8 * Math.divideAndRoundUp (s.mCursor + count) BITS_PER_QUANT ≤ i) →
        getBit s2.mData i = getBit s.mData i := by
  intro s data count s2 hwb h i hi
  by_cases hc : count = 0
  · subst hc
    have heval : s.writeBits data 0 = some s := by
      simp [Bitstream.writeBits]
    rw [heval, Option.some.injEq] at h
    rw [← h]
  · obtain ⟨s1, h1, hdata⟩ := writeBits_data s data count s2 hc h
    have hall := reallocIfNeeded_getD_all s _ s1 h1 hwb.1
    have hcur1 : s1.mCursor = s.mCursor := (reallocIfNeeded_some_fields _ _ _ h1).2.2.1
    rw [hcur1, cursor_shiftRight s.mCursor, cursor_and_mask s.mCursor,
      cursor_shiftRight count] at hdata
    simp only [BPQ_eq] at hdata
    simp only [Math.divideAndRoundUp, BPQ_eq] at hi
    show (s2.mData.getD (i / 8) 0).testBit (i % 8) = (s.mData.getD (i / 8) 0).testBit (i % 8)
    rw [hdata]
    by_cases hm : s.mCursor % 8 = 0
    · rw [if_pos hm, hm]
      rw [writeBitsLoop_frame 0 (by omega) _ _ _ _ _ (i / 8)
        (by simp only [Math.divideAndRoundUp, BPQ_eq]; omega)]
      rw [memcpyQuants_frame _ _ _ _ _ (i / 8) (by omega)]
      rw [hall (i / 8)]
    · rw [if_neg hm]
      simp only [Nat.zero_mul, Nat.sub_zero, Nat.add_zero, List.drop_zero,
        memcpyQuants_zero] at *
      rcases hi with hlt | hge
      · by_cases hk : i / 8 = s.mCursor / 8
        · have hjm : i % 8 < s.mCursor % 8 := by omega
          rw [hk, writeBitsLoop_firstByte (s.mCursor % 8) (by omega) _ _ _ _ _ _ hjm,
            hall (s.mCursor / 8)]
        · have hklt : i / 8 < s.mCursor / 8 := by omega
          rw [writeBitsLoop_frame (s.mCursor % 8) (by omega) _ _ _ _ _ (i / 8) (Or.inl hklt),
            hall (i / 8)]
      · rw [writeBitsLoop_frame (s.mCursor % 8) (by omega) _ _ _ _ _ (i / 8)
          (Or.inr (by simp only [Math.divideAndRoundUp, BPQ_eq]; omega)),
          hall (i / 8)]

/-- Witness for the amended C2: an unaligned write on an external buffer
leaves the bit below the cursor and a bit in a later quantum unchanged. -/
theorem C2_write_frame_witness :
    ∃ s2, ((Bitstream.external [1, 255, 9] 24).seek 4).writeBits [255] 8 = some s2 ∧
      getBit s2.mData 0 = getBit (Bitstream.external [1, 255, 9] 24).mData 0 ∧
      getBit s2.mData 16 = getBit (Bitstream.external [1, 255, 9] 24).mData 16 := by
  refine ⟨_, rfl, ?_, ?_⟩
  · exact C2_write_frame ((Bitstream.external [1, 255, 9] 24).seek 4) [255] 8 _
      ⟨fun hcontra => Bool.noConfusion hcontra, by decide, by decide⟩ rfl 0 (Or.inl (by decide))
  · exact C2_write_frame ((Bitstream.external [1, 255, 9] 24).seek 4) [255] 8 _
      ⟨fun hcontra => Bool.noConfusion hcontra, by decide, by decide⟩ rfl 16 (Or.inr (by decide))

/-! ## Characterisation of `readBits` output bytes -/

/-- The quantum value one iteration of the read loop deposits: the byte at
`q` shifted down by `mod`, ORed (when the remaining count crosses into the
next quantum) with the next byte shifted up, truncated to a byte. -/
def quantVal (buf : List Nat) (q mod c : Nat) : Nat :=
  let v := buf.getD q 0 >>> mod
  if c > BITS_PER_QUANT - mod then
    (v ||| (buf.getD (q + 1) 0 <<< (BITS_PER_QUANT - mod))) % 256
  else v

theorem readBitsLoop_frame_lt : ∀ (fuel : Nat) (buf dest : List Nat) (q mod idx c k : Nat),
    k < idx → (readBitsLoop fuel buf dest q mod idx c).getD k 0 = dest.getD k 0 := by
  intro fuel
  induction fuel with
  | zero => intro buf dest q mod idx c k hk; rfl
  | succ n ih =>
    intro buf dest q mod idx c k hk
    by_cases hc : c = 0
    · simp [readBitsLoop, hc]
    · simp only [readBitsLoop, if_neg hc]
      rw [ih _ _ _ _ _ _ k (by omega), getD_set_ne _ _ _ _ (by omega)]

theorem readBitsLoop_getD (mod : Nat) :
    ∀ (fuel : Nat) (buf dest : List Nat) (q idx c j : Nat), c ≤ fuel → 8 * j < c →
      idx + j < dest.length →
      (readBitsLoop fuel buf dest q mod idx c).getD (idx + j) 0 =
        quantVal buf (q + j) mod (c - 8 * j) := by
  intro fuel
  induction fuel with
  | zero => intro buf dest q idx c j hcf hj hlen; omega
  | succ n ih =>
    intro buf dest q idx c j hcf hj hlen
    have hc : c ≠ 0 := by omega
    simp only [readBitsLoop, if_neg hc, BPQ_eq]
    by_cases hj0 : j = 0
    · subst hj0
      show (readBitsLoop n buf (dest.set idx _) (q + 1) mod (idx + 1) (c - min 8 c)).getD idx 0 =
        quantVal buf q mod c
      rw [readBitsLoop_frame_lt _ _ _ _ _ _ _ idx (by omega),
        getD_set_self _ _ _ (by omega : idx < dest.length)]
      rfl
    · obtain ⟨jm, rfl⟩ : ∃ jm, j = jm + 1 := ⟨j - 1, by omega⟩
      have hbig : 8 < c := by omega
      have hmin : c - min 8 c = c - 8 := by omega
      rw [hmin, show idx + (jm + 1) = (idx + 1) + jm from by omega,
        ih buf _ (q + 1) (idx + 1) (c - 8) jm (by omega) (by omega)
          (by rw [List.length_set]; omega),
        show (q + 1) + jm = q + (jm + 1) from by omega,
        show (c - 8) - 8 * jm = c - 8 * (jm + 1) from by omega]

theorem memcpyQuants_getD : ∀ (n : Nat) (dst src : List Nat) (a b j : Nat), j < n →
    a + j < dst.length →
    (memcpyQuants dst src a b n).getD (a + j) 0 = src.getD (b + j) 0 := by
  intro n
  induction n with
  | zero => intro dst src a b j hj hlen; omega
  | succ m ih =>
    intro dst src a b j hj hlen
    show (memcpyQuants (dst.set a (src.getD b 0)) src (a + 1) (b + 1) m).getD (a + j) 0 = _
    by_cases hj0 : j = 0
    · subst hj0
      show (memcpyQuants (dst.set a (src.getD b 0)) src (a + 1) (b + 1) m).getD a 0 =
        src.getD b 0
      rw [memcpyQuants_frame _ _ _ _ _ a (by omega),
        getD_set_self _ _ _ (by omega : a < dst.length)]
    · obtain ⟨jm, rfl⟩ : ∃ jm, j = jm + 1 := ⟨j - 1, by omega⟩
      rw [show a + (jm + 1) = (a + 1) + jm from by omega,
        ih _ _ (a + 1) (b + 1) jm (by omega) (by rw [List.length_set]; omega),
        show (b + 1) + jm = b + (jm + 1) from by omega]

theorem getD_lt_256 (l : List Nat) (hb : ∀ b ∈ l, b < 256) (j : Nat) : l.getD j 0 < 256 := by
  rw [getD_eq]
  by_cases hj : j < l.length
  · rw [List.getElem?_eq_getElem hj]
    exact hb _ (List.getElem_mem hj)
  · rw [List.getElem?_eq_none (by omega)]
    show (0 : Nat) < 256
    omega

theorem or_shl8_mod (a b : Nat) (ha : a < 256) : (a ||| b <<< 8) % 256 = a := by
  apply Nat.eq_of_testBit_eq
  intro i
  rw [show (256 : Nat) = 2 ^ 8 from rfl, Nat.testBit_mod_two_pow, Nat.testBit_lor,
    Nat.testBit_shiftLeft]
  by_cases hi : i < 8
  · simp [hi, show ¬(i ≥ 8) by omega]
  · have ha2 : a < 2 ^ 8 := ha
    have hfa : a.testBit i = false :=
      Nat.testBit_lt_two_pow (lt_of_lt_of_le ha2 (Nat.pow_le_pow_right (by omega) (by omega)))
    simp [hi, hfa]

/-- The exact destination buffer produced by a successful non-trivial
`readBits`. -/
theorem readBits_dest (s : Bitstream) (dest : List Nat) (count : Nat) (dest2 : List Nat)
    (s2 : Bitstream) (hc : count ≠ 0) (hle : s.mCursor + count ≤ s.mNumBits)
    (h : s.readBits dest count = some (dest2, s2)) :
    dest2 =
      readBitsLoop
        (count -
          (if s.mCursor &&& (BITS_PER_QUANT - 1) = 0 then count >>> BITS_PER_QUANT_LOG2
            else 0) * BITS_PER_QUANT)
        s.mData
        (memcpyQuants dest s.mData 0 (s.mCursor >>> BITS_PER_QUANT_LOG2)
          (if s.mCursor &&& (BITS_PER_QUANT - 1) = 0 then count >>> BITS_PER_QUANT_LOG2
            else 0))
        (s.mCursor >>> BITS_PER_QUANT_LOG2 +
          (if s.mCursor &&& (BITS_PER_QUANT - 1) = 0 then count >>> BITS_PER_QUANT_LOG2
            else 0))
        (s.mCursor &&& (BITS_PER_QUANT - 1))
        (if s.mCursor &&& (BITS_PER_QUANT - 1) = 0 then count >>> BITS_PER_QUANT_LOG2 else 0)
        (count -
          (if s.mCursor &&& (BITS_PER_QUANT - 1) = 0 then count >>> BITS_PER_QUANT_LOG2
            else 0) * BITS_PER_QUANT) := by
  simp only [Bitstream.readBits, if_neg hc, if_pos hle, Option.some.injEq, Prod.mk.injEq] at h
  exact h.1.symm

/-- Every touched destination byte of `readBits` is `quantVal` of the
stream buffer — in particular it does not depend on the destination's prior
contents. -/
theorem readBits_getD (s : Bitstream) (dest : List Nat) (count : Nat) (dest2 : List Nat)
    (s2 : Bitstream) (hwb : WB s) (hc : count ≠ 0)
    (h : s.readBits dest count = some (dest2, s2)) :
    ∀ j, 8 * j < count → j < dest.length →
      dest2.getD j 0 = quantVal s.mData (s.mCursor / 8 + j) (s.mCursor % 8) (count - 8 * j) := by
  intro j hj hjlen
  have hle : s.mCursor + count ≤ s.mNumBits := by
    rcases readBits_some s dest count dest2 s2 h with ⟨hc0, _, _⟩ | ⟨_, hle, _⟩
    · exact absurd hc0 hc
    · exact hle
  have hdest := readBits_dest s dest count dest2 s2 hc hle h
  rw [cursor_shiftRight s.mCursor, cursor_and_mask s.mCursor, cursor_shiftRight count] at hdest
  simp only [BPQ_eq] at hdest
  rw [hdest]
  by_cases hm : s.mCursor % 8 = 0
  · rw [if_pos hm] at *
    rw [hm]
    by_cases hjq : j < count / 8
    · -- byte delivered by the aligned memcpy
      rw [readBitsLoop_frame_lt _ _ _ _ _ _ _ j hjq]
      have := memcpyQuants_getD (count / 8) dest s.mData 0 (s.mCursor / 8) j hjq
        (by omega)
      rw [show (0 : Nat) + j = j from by omega] at this
      rw [this]
      have hbyte := getD_lt_256 s.mData hwb.2.2 (s.mCursor / 8 + j)
      simp only [quantVal, BPQ_eq, Nat.sub_zero, Nat.shiftRight_zero]
      split_ifs with hspill
      · exact (or_shl8_mod _ _ hbyte).symm
      · rfl
    · -- the final partial byte, delivered by the loop
      have hjeq : j = count / 8 := by omega
      subst hjeq
      have := readBitsLoop_getD 0 (count - count / 8 * 8) s.mData
        (memcpyQuants dest s.mData 0 (s.mCursor / 8) (count / 8))
        (s.mCursor / 8 + count / 8) (count / 8) (count - count / 8 * 8) 0 (le_refl _)
        (by omega) (by rw [length_memcpyQuants]; omega)
      rw [Nat.add_zero, Nat.mul_zero, Nat.sub_zero] at this
      rw [this, show s.mCursor / 8 + count / 8 + 0 = s.mCursor / 8 + count / 8 from by omega,
        Nat.mul_comm (count / 8) 8]
  · rw [if_neg hm] at *
    simp only [Nat.zero_mul, Nat.sub_zero, Nat.add_zero, memcpyQuants_zero] at hdest ⊢
    have := readBitsLoop_getD (s.mCursor % 8) count s.mData dest (s.mCursor / 8) 0 count j
      (le_refl _) (by omega) (by omega)
    rw [Nat.zero_add] at this
    exact this

/-- **C10**: a `readBits(destination, countBits)` with `countBits` not a
whole multiple of the quantum width writes entire storage quanta of the
destination: every touched destination byte is independent of the
destination's prior contents, and each bit at position `countBits` or above
in the last touched byte is either a stream bit following the requested
range or zero — never the destination's previous bit. -/
theorem C10_read_overwrites_tail :
    ∀ (s : Bitstream) (dest dest0 d2 d0 : List Nat) (count : Nat) (s2 s0 : Bitstream),
      WB s → 0 < count → count % 8 ≠ 0 →
      Math.divideAndRoundUp count BITS_PER_QUANT ≤ dest.length →
      Math.divideAndRoundUp count BITS_PER_QUANT ≤ dest0.length →
      s.readBits dest count = some (d2, s2) → s.readBits dest0 count = some (d0, s0) →
      (∀ j, j < Math.divideAndRoundUp count BITS_PER_QUANT → d2.getD j 0 = d0.getD j 0) ∧
      (∀ p, count ≤ p → p < 8 * Math.divideAndRoundUp count BITS_PER_QUANT →
        getBit d2 p = getBit s.mData (s.mCursor + p) ∨ getBit d2 p = false) := by
  intro s dest dest0 d2 d0 count s2 s0 hwb hpos hmod hlen hlen0 h h0
  simp only [Math.divideAndRoundUp, BPQ_eq] at hlen hlen0
  constructor
  · intro j hjq
    simp only [Math.divideAndRoundUp, BPQ_eq] at hjq
    have h8 : 8 * j < count := by omega
    rw [readBits_getD s dest count d2 s2 hwb (by omega) h j h8 (by omega),
      readBits_getD s dest0 count d0 s0 hwb (by omega) h0 j h8 (by omega)]
  · intro p hp1 hp2
    simp only [Math.divideAndRoundUp, BPQ_eq] at hp2
    have hjL : p / 8 = count / 8 := by omega
    have h8 : 8 * (count / 8) < count := by omega
    have hval := readBits_getD s dest count d2 s2 hwb (by omega) h (count / 8) h8 (by omega)
    show (d2.getD (p / 8) 0).testBit (p % 8) = getBit s.mData (s.mCursor + p) ∨
      (d2.getD (p / 8) 0).testBit (p % 8) = false
    rw [hjL, hval]
    have hm8 : s.mCursor % 8 < 8 := Nat.mod_lt _ (by omega)
    have hpb8 : p % 8 < 8 := Nat.mod_lt _ (by omega)
    have hB1 : s.mData.getD (s.mCursor / 8 + count / 8) 0 < 2 ^ 8 :=
      getD_lt_256 s.mData hwb.2.2 (s.mCursor / 8 + count / 8)
    simp only [quantVal, BPQ_eq]
    by_cases hsp : count - 8 * (count / 8) > 8 - s.mCursor % 8
    · rw [if_pos hsp]
      have e1 : ((s.mData.getD (s.mCursor / 8 + count / 8) 0 >>> (s.mCursor % 8) |||
          s.mData.getD (s.mCursor / 8 + count / 8 + 1) 0 <<< (8 - s.mCursor % 8)) % 256).testBit
            (p % 8) =
          ((s.mData.getD (s.mCursor / 8 + count / 8) 0).testBit (s.mCursor % 8 + p % 8) ||
            (decide (p % 8 ≥ 8 - s.mCursor % 8) &&
              (s.mData.getD (s.mCursor / 8 + count / 8 + 1) 0).testBit
                (p % 8 - (8 - s.mCursor % 8)))) := by
        rw [show (256 : Nat) = 2 ^ 8 from rfl, Nat.testBit_mod_two_pow, Nat.testBit_lor,
          Nat.testBit_shiftRight, Nat.testBit_shiftLeft]
        simp [hpb8]
      rw [e1]
      left
      show _ = (s.mData.getD ((s.mCursor + p) / 8) 0).testBit ((s.mCursor + p) % 8)
      by_cases hcase : s.mCursor % 8 + p % 8 < 8
      · rw [show (s.mCursor + p) / 8 = s.mCursor / 8 + count / 8 from by omega,
          show (s.mCursor + p) % 8 = s.mCursor % 8 + p % 8 from by omega]
        have hno : ¬(p % 8 ≥ 8 - s.mCursor % 8) := by omega
        simp [hno]
      · rw [show (s.mCursor + p) / 8 = s.mCursor / 8 + count / 8 + 1 from by omega,
          show (s.mCursor + p) % 8 = s.mCursor % 8 + p % 8 - 8 from by omega]
        have hfalse : (s.mData.getD (s.mCursor / 8 + count / 8) 0).testBit
            (s.mCursor % 8 + p % 8) = false :=
          Nat.testBit_lt_two_pow
            (lt_of_lt_of_le hB1 (Nat.pow_le_pow_right (by omega) (by omega)))
        have hyes : p % 8 ≥ 8 - s.mCursor % 8 := by omega
        rw [hfalse, Bool.false_or, decide_eq_true hyes, Bool.true_and,
          show p % 8 - (8 - s.mCursor % 8) = s.mCursor % 8 + p % 8 - 8 from by omega]
    · rw [if_neg hsp]
      rw [Nat.testBit_shiftRight]
      by_cases hcase : s.mCursor % 8 + p % 8 < 8
      · left
        show _ = (s.mData.getD ((s.mCursor + p) / 8) 0).testBit ((s.mCursor + p) % 8)
        rw [show (s.mCursor + p) / 8 = s.mCursor / 8 + count / 8 from by omega,
          show (s.mCursor + p) % 8 = s.mCursor % 8 + p % 8 from by omega]
      · right
        exact Nat.testBit_lt_two_pow
          (lt_of_lt_of_le hB1 (Nat.pow_le_pow_right (by omega) (by omega)))

/-- Witness for C10: an unaligned 5-bit read at cursor 3 fills the whole
destination byte (`[22]`) regardless of the destination's prior contents,
and bit 5 of the result is a following stream bit or zero. -/
theorem C10_witness :
    getBit [22] 5 = getBit (Bitstream.external [181, 204] 16).mData
        (((Bitstream.external [181, 204] 16).seek 3).mCursor + 5) ∨
      getBit ([22] : List Nat) 5 = false :=
  (C10_read_overwrites_tail ((Bitstream.external [181, 204] 16).seek 3) [0] [7] [22] [22] 5
    { mData := [181, 204], mMaxBits := 16, mNumBits := 16, mOwnsMemory := false, mCursor := 8 }
    { mData := [181, 204], mMaxBits := 16, mNumBits := 16, mOwnsMemory := false, mCursor := 8 }
    ⟨fun hc => Bool.noConfusion hc, by decide, by decide⟩ (by decide) (by decide)
    (by decide) (by decide) rfl rfl).2 5 (by decide) (by decide)

/-! ## `align` arithmetic for power-of-two alignments -/

theorem usub32_small (a c : Nat) (ha : a < 4294967296) (hc : c ≤ a) (hclt : c < 4294967296) :
    usub32 a c = a - c := by
  unfold usub32 UINT32_MOD
  rw [Nat.mod_eq_of_lt ha, Nat.mod_eq_of_lt hclt]
  omega

theorem usub32_zero_one : usub32 0 1 = 4294967295 := rfl

theorem bitstream_ext (s s2 : Bitstream) (h1 : s.mData = s2.mData)
    (h2 : s.mMaxBits = s2.mMaxBits) (h3 : s.mNumBits = s2.mNumBits)
    (h4 : s.mOwnsMemory = s2.mOwnsMemory) (h5 : s.mCursor = s2.mCursor) : s = s2 := by
  cases s
  cases s2
  simp_all

theorem roundUpB_ge (x b : Nat) (hb : 0 < b) : x ≤ (x + b - 1) / b * b := by
  have hdm := Nat.div_add_mod (x + b - 1) b
  have hml := Nat.mod_lt (x + b - 1) hb
  rw [Nat.mul_comm]
  omega

theorem roundUpB_eq_self (x b : Nat) (hb : 0 < b) (hx : x % b = 0) :
    (x + b - 1) / b * b = x := by
  obtain ⟨q, rfl⟩ := Nat.dvd_of_mod_eq_zero hx
  rw [show b * q + b - 1 = b * q + (b - 1) from by omega, Nat.mul_add_div hb,
    Nat.div_eq_of_lt (by omega : b - 1 < b), Nat.add_zero, Nat.mul_comm]

theorem mask32_and_pow (k : Nat) (hk : k + 3 ≤ 32) :
    4294967295 &&& (2 ^ (k + 3) - 1) = 2 ^ (k + 3) - 1 := by
  apply Nat.eq_of_testBit_eq
  intro i
  rw [Nat.testBit_land, show (4294967295 : Nat) = 2 ^ 32 - 1 from rfl,
    Nat.testBit_two_pow_sub_one, Nat.testBit_two_pow_sub_one]
  by_cases h1 : i < k + 3
  · simp [h1, show i < 32 by omega]
  · simp [h1]

/-- The cursor after `align` with a power-of-two byte count: the next
multiple of `count * 8` at or after the cursor, clamped to the capacity. -/
theorem align_cursor_pow2 (s : Bitstream) (k count : Nat) (hcount : count = 2 ^ k)
    (hk : k ≤ 28) (hc : s.mCursor ≤ s.mMaxBits) (hm : s.mMaxBits < 2 ^ 31) :
    (s.align count).mCursor =
      min (Math.divideAndRoundUp s.mCursor (count * 8) * (count * 8)) s.mMaxBits := by
  subst hcount
  have hb8 : (2 : Nat) ^ k * 8 = 2 ^ (k + 3) := by
    rw [pow_add]
    norm_num
  have hblt : (2 : Nat) ^ (k + 3) < 4294967296 := by
    have : (2 : Nat) ^ (k + 3) ≤ 2 ^ 31 := Nat.pow_le_pow_right (by omega) (by omega)
    omega
  have hbpos : 0 < (2 : Nat) ^ (k + 3) := Nat.pos_pow_of_pos _ (by omega)
  have hble31 : (2 : Nat) ^ (k + 3) ≤ 2 ^ 31 := Nat.pow_le_pow_right (by omega) (by omega)
  have hm31 : s.mMaxBits < 2147483648 := hm
  have halign : s.align (2 ^ k) = s.skip (toInt32 (usub32 (2 ^ k * 8 % UINT32_MOD)
      (((usub32 s.mCursor 1 &&& usub32 (2 ^ k * 8 % UINT32_MOD) 1) + 1) % UINT32_MOD))) := by
    simp only [Bitstream.align]
    rw [if_neg (by positivity : ¬(2 : Nat) ^ k = 0)]
  rw [halign, hb8]
  have e0 : (2 : Nat) ^ (k + 3) % UINT32_MOD = 2 ^ (k + 3) := Nat.mod_eq_of_lt hblt
  rw [e0]
  have e1 : usub32 (2 ^ (k + 3)) 1 = 2 ^ (k + 3) - 1 :=
    usub32_small _ 1 hblt (by omega) (by omega)
  rw [e1]
  by_cases hc0 : s.mCursor = 0
  · rw [hc0, usub32_zero_one, mask32_and_pow k (by omega),
      show (2 ^ (k + 3) - 1) + 1 = 2 ^ (k + 3) from by omega, e0,
      show usub32 (2 ^ (k + 3)) (2 ^ (k + 3)) = 0 from by
        rw [usub32_small _ _ hblt (le_refl _) hblt]
        omega,
      show toInt32 0 = 0 from rfl]
    have hspec := skip_cursor_spec s 0 (by omega) hm31
    rw [hc0] at hspec
    have hr : Math.divideAndRoundUp 0 (2 ^ (k + 3)) * 2 ^ (k + 3) = 0 := by
      unfold Math.divideAndRoundUp
      rw [Nat.div_eq_of_lt (by omega), Nat.zero_mul]
    rw [hr]
    simp only [Math.clamp, max_def, min_def] at hspec
    split_ifs at hspec <;> omega
  · have e2 : usub32 s.mCursor 1 = s.mCursor - 1 :=
      usub32_small _ _ (by omega) (by omega) (by omega)
    rw [e2, Nat.and_pow_two_sub_one_eq_mod]
    have hmlb : (s.mCursor - 1) % 2 ^ (k + 3) < 2 ^ (k + 3) := Nat.mod_lt _ hbpos
    have e4 : ((s.mCursor - 1) % 2 ^ (k + 3) + 1) % UINT32_MOD =
        (s.mCursor - 1) % 2 ^ (k + 3) + 1 := by
      unfold UINT32_MOD
      exact Nat.mod_eq_of_lt (by omega)
    rw [e4]
    have e5 : usub32 (2 ^ (k + 3)) ((s.mCursor - 1) % 2 ^ (k + 3) + 1) =
        2 ^ (k + 3) - ((s.mCursor - 1) % 2 ^ (k + 3) + 1) :=
      usub32_small _ _ hblt (by omega) (by omega)
    rw [e5]
    have hamlt : 2 ^ (k + 3) - ((s.mCursor - 1) % 2 ^ (k + 3) + 1) < 2147483648 := by omega
    rw [toInt32_small _ hamlt]
    have hspec := skip_cursor_spec s
      ((2 ^ (k + 3) - ((s.mCursor - 1) % 2 ^ (k + 3) + 1) : Nat) : Int) (by omega) hm31
    have hkey : s.mCursor + (2 ^ (k + 3) - ((s.mCursor - 1) % 2 ^ (k + 3) + 1)) =
        Math.divideAndRoundUp s.mCursor (2 ^ (k + 3)) * 2 ^ (k + 3) := by
      unfold Math.divideAndRoundUp
      have hdiv : (s.mCursor + 2 ^ (k + 3) - 1) / 2 ^ (k + 3) =
          (s.mCursor - 1) / 2 ^ (k + 3) + 1 := by
        rw [show s.mCursor + 2 ^ (k + 3) - 1 = (s.mCursor - 1) + 2 ^ (k + 3) from by omega,
          Nat.add_div_right _ hbpos]
      rw [hdiv, Nat.add_mul, Nat.one_mul, Nat.mul_comm ((s.mCursor - 1) / 2 ^ (k + 3))]
      have hdm := Nat.div_add_mod (s.mCursor - 1) (2 ^ (k + 3))
      omega
    simp only [Math.clamp, max_def, min_def] at hspec
    rw [← hkey]
    split_ifs at hspec <;> omega

/-- **C5** (amended): `align(0)` is a no-op, and for every power-of-two
`byteCount` (the alignment sizes the mask arithmetic supports, up to
`2^28` so `byteCount * 8` fits `uint32_t`), `align(byteCount)` advances
the cursor to the next multiple of `byteCount * 8` bits clamped to the
capacity via `skip`; if the cursor is already on such a boundary the call
is a no-op, and calling `align` twice in a row is a no-op the second
time. -/
theorem C5_align_pow2 :
    (∀ s : Bitstream, s.align 0 = s) ∧
    (∀ (s : Bitstream) (k count : Nat), count = 2 ^ k → k ≤ 28 →
      s.mCursor ≤ s.mMaxBits → s.mMaxBits < 2 ^ 31 →
      (s.align count).mCursor =
          min (Math.divideAndRoundUp s.mCursor (count * 8) * (count * 8)) s.mMaxBits ∧
        (s.mCursor % (count * 8) = 0 → s.align count = s) ∧
        (s.align count).align count = s.align count) := by
  have hnoop : ∀ (s : Bitstream) (k count : Nat), count = 2 ^ k → k ≤ 28 →
      s.mCursor ≤ s.mMaxBits → s.mMaxBits < 2 ^ 31 → s.mCursor % (count * 8) = 0 →
      s.align count = s := by
    intro s k count hcount hk hc hm hmod
    have hcur := align_cursor_pow2 s k count hcount hk hc hm
    have hb : 0 < count * 8 := by
      rw [hcount]
      positivity
    have hround : Math.divideAndRoundUp s.mCursor (count * 8) * (count * 8) = s.mCursor := by
      unfold Math.divideAndRoundUp
      exact roundUpB_eq_self _ _ hb hmod
    rw [hround, min_eq_left hc] at hcur
    exact bitstream_ext _ _ (align_fields s count).2.2.1 (align_fields s count).1
      (align_fields s count).2.1 (align_fields s count).2.2.2 hcur
  refine ⟨fun s => rfl, fun s k count hcount hk hc hm => ?_⟩
  have hcur := align_cursor_pow2 s k count hcount hk hc hm
  refine ⟨hcur, hnoop s k count hcount hk hc hm, ?_⟩
  have hb : 0 < count * 8 := by
    rw [hcount]
    positivity
  set A := s.align count with hA
  have hAmax : A.mMaxBits = s.mMaxBits := (align_fields s count).1
  have hAc : A.mCursor ≤ A.mMaxBits := by
    rw [hAmax, hcur]
    exact min_le_right _ _
  have hAm : A.mMaxBits < 2 ^ 31 := by
    rw [hAmax]
    exact hm
  by_cases hcase : Math.divideAndRoundUp s.mCursor (count * 8) * (count * 8) ≤ s.mMaxBits
  · have hAcur : A.mCursor = Math.divideAndRoundUp s.mCursor (count * 8) * (count * 8) := by
      rw [hcur]
      exact min_eq_left hcase
    have hAmod : A.mCursor % (count * 8) = 0 := by
      rw [hAcur]
      exact Nat.mul_mod_left _ _
    exact hnoop A k count hcount hk hAc hAm hAmod
  · have hAcur : A.mCursor = s.mMaxBits := by
      rw [hcur]
      exact min_eq_right (by omega)
    have hcur2 := align_cursor_pow2 A k count hcount hk hAc hAm
    have hfin : (A.align count).mCursor = A.mCursor := by
      rw [hcur2, hAmax, hAcur]
      have h2 : s.mMaxBits ≤ Math.divideAndRoundUp s.mMaxBits (count * 8) * (count * 8) := by
        unfold Math.divideAndRoundUp
        exact roundUpB_ge _ _ hb
      exact min_eq_right h2
    exact bitstream_ext _ _ (align_fields A count).2.2.1 (align_fields A count).1
      (align_fields A count).2.1 (align_fields A count).2.2.2 hfin

/-- Witness for the amended C5: `align(4)` at cursor 9 with capacity 48
advances to bit 32. -/
theorem C5_align_pow2_witness :
    (((Bitstream.external [0, 0, 0, 0, 0, 0] 48).seek 9).align 4).mCursor = 32 := by
  have h := (C5_align_pow2.2 ((Bitstream.external [0, 0, 0, 0, 0, 0] 48).seek 9) 2 4 rfl
    (by omega) (by decide) (by decide)).1
  rw [h]
  decide

end bs

